import Mathlib

/-!
Verification development for a minimal fiber-based UI rendering runtime
(a didactic reimplementation of a virtual-DOM engine with cooperative
scheduling).  The definitions below are a shallow embedding of the
TypeScript sources: pure helpers become Lean functions, the mutable
fiber graph becomes an arena (`List FiberRec` indexed by `Nat`), and all
host-platform mutations (node creation, property assignment, listener
registration, child insertion/removal) are recorded in an operation
trace instead of being performed on a real document tree.
-/

namespace Didact

/-- JS values stored in property bags.  Functions (event handlers) are
identified by reference, modelled as a numeric id; `===`/`!==` on such
values is therefore decidable equality.  Property bags never store the
JS `undefined` value (the sources never write `undefined` into props):
absence of a key models `undefined`. -/
inductive Value where
  | str (s : String)
  | num (n : Int)
  | fnRef (id : Nat)
deriving DecidableEq, Repr

/-- A JS object used as a property bag: ordered key/value pairs.
The list order models JS object insertion order (`Object.keys`). -/
abbrev PropBag := List (String × Value)

/-- `bag[key]`: the first binding of `key`, or `none` (JS `undefined`). -/
def getProp (bag : PropBag) (k : String) : Option Value :=
  (bag.find? (fun p => p.1 == k)).map (fun p => p.2)

/-- `key in bag`. -/
def hasProp (bag : PropBag) (k : String) : Bool :=
  (bag.find? (fun p => p.1 == k)).isSome

/-- `Object.keys(bag)`. -/
def keysOf (bag : PropBag) : List String :=
  bag.map (fun p => p.1)

/-- `isEvent` from index.tsx: `key.startsWith("on")`, modelled over
the string's character sequence. -/
def isEvent (k : String) : Bool :=
  match k.data with
  | 'o' :: 'n' :: _ => true
  | _ => false

/-- `isProperty` from index.tsx: `key !== "children" && !isEvent(key)`. -/
def isProperty (k : String) : Bool := k != "children" && !isEvent k

/-- `isNew(prev, next)(key)` from index.tsx: `prev[key] !== next[key]`. -/
def isNew (prev next : PropBag) (k : String) : Bool :=
  getProp prev k != getProp next k

/-- `isGone(next)(key)` from index.tsx: `!(key in next)`. -/
def isGone (next : PropBag) (k : String) : Bool := !(hasProp next k)

/-- `isNewOrGone(prev, next)` from index.tsx.  The source computes
`isNew<T>(prev, next) || isGone<T>(next)`: JS `||` is applied to two
*function values*; the first operand is truthy, so the whole expression
evaluates to the function `isNew(prev, next)` and `isGone` is never
consulted.  The embedding captures that result. -/
def isNewOrGone (prev next : PropBag) (k : String) : Bool :=
  isNew prev next k

/-- `name.toLowerCase().substring(2)`: the host event name bound for a
listener property name, modelled over the character sequence. -/
def eventNameOf (n : String) : String :=
  String.mk ((n.data.map Char.toLower).drop 2)

/-- Host-platform mutations.  Node handles are numeric ids. -/
inductive HostOp where
  | createElementNode (node : Nat) (tag : String)
  | createTextNode (node : Nat)
  | removeListener (node : Nat) (event : String) (handler : Value)
  | setProp (node : Nat) (name : String) (v : Value)
  | addListener (node : Nat) (event : String) (handler : Value)
  | appendChild (parent child : Nat)
  | removeChild (parent child : Nat)
deriving DecidableEq, Repr

/-- Phase 1 of `updateDOMOf` (index.tsx): names of old event listeners
to remove — `Object.keys(prevProps).filter(isEvent).filter(isNewOrGone(prevProps, nextProps))`. -/
def removedListenerNames (prev next : PropBag) : List String :=
  ((keysOf prev).filter isEvent).filter (isNewOrGone prev next)

/-- Phase 2 of `updateDOMOf` (index.tsx): old property names to reset —
`Object.keys(prevProps).filter(isProperty).filter(isGone(nextProps))`. -/
def removedPropNames (prev next : PropBag) : List String :=
  ((keysOf prev).filter isProperty).filter (isGone next)

/-- Phase 3 of `updateDOMOf` (index.tsx): new or changed property names
to assign — `Object.keys(nextProps).filter(isProperty).filter(isNew(prevProps, nextProps))`. -/
def setPropNames (prev next : PropBag) : List String :=
  ((keysOf next).filter isProperty).filter (isNew prev next)

/-- Phase 4 of `updateDOMOf` (index.tsx): listener names to add —
`Object.keys(nextProps).filter(isEvent).filter(isNew(prevProps, nextProps))`. -/
def addedListenerNames (prev next : PropBag) : List String :=
  ((keysOf next).filter isEvent).filter (isNew prev next)

/-- The host mutations performed by `updateDOMOf` (index.tsx) on node
`dom` when moving from `prev` to `next` properties, in program order:
remove old listeners, reset gone properties (`dom[name] = ""`), assign
new/changed properties, add new/changed listeners. -/
def updateDOMOfOps (dom : Nat) (prev next : PropBag) : List HostOp :=
  ((removedListenerNames prev next).map
      (fun n => HostOp.removeListener dom (eventNameOf n) ((getProp prev n).getD (Value.str ""))))
  ++ ((removedPropNames prev next).map
      (fun n => HostOp.setProp dom n (Value.str "")))
  ++ ((setPropNames prev next).map
      (fun n => HostOp.setProp dom n ((getProp next n).getD (Value.str ""))))
  ++ ((addedListenerNames prev next).map
      (fun n => HostOp.addListener dom (eventNameOf n) ((getProp next n).getD (Value.str ""))))

/-- Phase 1 of `updateDom` (part_000): its removed-listener filter is
written out explicitly as `(key) => !(key in nextProps) || isNew(prevProps, nextProps)(key)`. -/
def removedListenerNamesP0 (prev next : PropBag) : List String :=
  ((keysOf prev).filter isEvent).filter (fun k => !(hasProp next k) || isNew prev next k)

/-- The host mutations performed by `updateDom` (part_000).  Its
`isEvent`/`isProperty`/`isNew`/`isGone` combinators have the same
bodies as the index.tsx ones (part_000's `isGone(prev, next)` ignores
`prev`), so those are reused; only the removed-listener filter differs
textually. -/
def updateDomOps (dom : Nat) (prev next : PropBag) : List HostOp :=
  ((removedListenerNamesP0 prev next).map
      (fun n => HostOp.removeListener dom (eventNameOf n) ((getProp prev n).getD (Value.str ""))))
  ++ ((removedPropNames prev next).map
      (fun n => HostOp.setProp dom n (Value.str "")))
  ++ ((setPropNames prev next).map
      (fun n => HostOp.setProp dom n ((getProp next n).getD (Value.str ""))))
  ++ ((addedListenerNames prev next).map
      (fun n => HostOp.addListener dom (eventNameOf n) ((getProp next n).getD (Value.str ""))))

/-- Fiber/element kinds.  In the source the kind is
`string | "TEXT_FIBER" | "ROOT_FIBER" | Function`; the two reserved
marker strings become dedicated constructors and component functions
are identified by reference (a numeric id resolved through a component
environment), so kind equality (`===`) is decidable equality. -/
inductive FType where
  | tag (t : String)
  | text
  | root
  | fc (id : Nat)
deriving DecidableEq, Repr

/-- An element: the immutable tree description produced by
`createElement`.  Its `props` are split into the reserved ordered
`children` list and the remaining attribute bag (which includes
`nodeValue` for text elements). -/
inductive Element where
  | mk (ftype : FType) (attrs : PropBag) (children : List Element)

mutual
/-- Decidable equality for elements (written by hand because automatic
deriving does not handle the nested `List Element`). -/
def Element.decEq : (a b : Element) → Decidable (a = b)
  | .mk t a c, .mk t' a' c' =>
    if h1 : t = t' then
      if h2 : a = a' then
        match Element.decEqList c c' with
        | isTrue h3 => isTrue (by rw [h1, h2, h3])
        | isFalse h3 => isFalse (by intro h; cases h; exact h3 rfl)
      else isFalse (by intro h; cases h; exact h2 rfl)
    else isFalse (by intro h; cases h; exact h1 rfl)

/-- Decidable equality for lists of elements. -/
def Element.decEqList : (a b : List Element) → Decidable (a = b)
  | [], [] => isTrue rfl
  | [], _ :: _ => isFalse (by intro h; cases h)
  | _ :: _, [] => isFalse (by intro h; cases h)
  | x :: xs, y :: ys =>
    match Element.decEq x y, Element.decEqList xs ys with
    | isTrue h1, isTrue h2 => isTrue (by rw [h1, h2])
    | isFalse h1, _ => isFalse (by intro h; cases h; exact h1 rfl)
    | _, isFalse h2 => isFalse (by intro h; cases h; exact h2 rfl)
end

instance : DecidableEq Element := Element.decEq

/-- The `type` of an element. -/
def Element.ftypeOf : Element → FType
  | .mk t _ _ => t

/-- The attribute part of an element's props. -/
def Element.attrsOf : Element → PropBag
  | .mk _ a _ => a

/-- The `props.children` of an element. -/
def Element.childrenOf : Element → List Element
  | .mk _ _ c => c

/-- A fiber's `props`: the reserved `children` list plus the attribute
bag diffed against the host node. -/
structure FProps where
  children : List Element := []
  attrs : PropBag := []
deriving DecidableEq

/-- The props carried by an element, as fiber props. -/
def Element.propsOf (e : Element) : FProps :=
  { children := e.childrenOf, attrs := e.attrsOf }

/-- `effectTag` values. -/
inductive EffTag where
  | update
  | placement
  | deletion
deriving DecidableEq, Repr

/-- One fiber record in the arena.  All pointer fields
(`parent`/`child`/`sibling`/`alternate`) are arena indices; `dom` is a
host-node id. -/
structure FiberRec where
  ftype : FType
  props : FProps := {}
  dom : Option Nat := none
  parent : Option Nat := none
  child : Option Nat := none
  sibling : Option Nat := none
  alternate : Option Nat := none
  effectTag : Option EffTag := none
deriving DecidableEq

/-- The renderer's process-wide mutable state: the fiber arena, the
module-level singletons (`nextUnitOfWork`, `wipRoot`, `currentRoot`,
`deletions`), a host-node id supply, and the trace of host mutations
performed so far (oldest first). -/
structure EngState where
  fibers : List FiberRec := []
  nextUnitOfWork : Option Nat := none
  wipRoot : Option Nat := none
  currentRoot : Option Nat := none
  deletions : Option (List Nat) := none
  domCount : Nat := 0
  trace : List HostOp := []
deriving DecidableEq

/-- Dereference a fiber id. -/
def EngState.getF (s : EngState) (i : Nat) : Option FiberRec :=
  s.fibers[i]?

/-- Overwrite the record of fiber `i`. -/
def EngState.setF (s : EngState) (i : Nat) (f : FiberRec) : EngState :=
  { s with fibers := s.fibers.set i f }

/-- Allocate a fresh fiber, returning its id. -/
def EngState.alloc (s : EngState) (f : FiberRec) : Nat × EngState :=
  (s.fibers.length, { s with fibers := s.fibers ++ [f] })

/-- Allocate a fresh host-node id. -/
def EngState.newDom (s : EngState) : Nat × EngState :=
  (s.domCount, { s with domCount := s.domCount + 1 })

/-- Record one host mutation. -/
def EngState.emit (s : EngState) (op : HostOp) : EngState :=
  { s with trace := s.trace ++ [op] }

/-- Record several host mutations. -/
def EngState.emitAll (s : EngState) (ops : List HostOp) : EngState :=
  { s with trace := s.trace ++ ops }

/-- In-place field update of fiber `i` (the source mutates fiber
objects directly). -/
def EngState.modifyF (s : EngState) (i : Nat) (g : FiberRec → FiberRec) : EngState :=
  match s.getF i with
  | some f => s.setF i (g f)
  | none => s

/-- `deletions!.push(fiber)`: appends to the pending-deletions list
(the source asserts the list is defined; an undefined list stays
undefined here, modelling that nothing was recorded). -/
def EngState.pushDeletion (s : EngState) (i : Nat) : EngState :=
  { s with deletions := s.deletions.map (fun l => l ++ [i]) }

/-- `createTextElement(text)` from index.tsx: a `TEXT_FIBER` element
whose `nodeValue` property carries the text. -/
def createTextElement (text : String) : Element :=
  .mk .text [("nodeValue", .str text)] []

/-- Child arguments of `createElement`: elements or bare strings. -/
inductive ChildArg where
  | elem (e : Element)
  | strLit (s : String)

/-- `createElement(type, props, ...children)` from index.tsx: bare
string children are normalized into text elements. -/
def createElement (t : FType) (attrs : PropBag) (children : List ChildArg) : Element :=
  .mk t attrs
    (children.map (fun c =>
      match c with
      | .elem e => e
      | .strLit txt => createTextElement txt))

/-- The component environment: resolves a function-component reference
to the function itself (`Props → Element`).  It is a parameter of the
engine (the program text), not part of the mutable state. -/
abbrev CompEnv := Nat → FProps → Element

/-- `createDOMOf(fiber)` from index.tsx: create a text node for the
text marker kind, otherwise `document.createElement(fiber.type as string)`.
The `root`/`fc` branches model the string cast on the reserved marker
and on a function value; the engine never reaches them (a root fiber
already owns the container and function fibers are never attached). -/
def createDOMOf (fid : Nat) (s : EngState) : Option Nat × EngState :=
  match s.getF fid with
  | none => (none, s)
  | some f =>
    let (d, s1) := s.newDom
    match f.ftype with
    | .text => (some d, s1.emit (.createTextNode d))
    | .tag t => (some d, s1.emit (.createElementNode d t))
    | .root => (some d, s1.emit (.createElementNode d "ROOT_FIBER"))
    | .fc _ => (some d, s1.emit (.createElementNode d ""))

/-- `updateDOMOf(fiber)` from index.tsx at the fiber level: diff
`fiber.alternate?.props ?? { children: [] }` against `fiber.props` and
perform the resulting host mutations on `fiber.dom!`. -/
def updateDOMOfF (fid : Nat) (s : EngState) : EngState :=
  match s.getF fid with
  | none => s
  | some f =>
    match f.dom with
    | none => s
    | some d =>
      let prevAttrs := ((f.alternate.bind s.getF).map (fun a => a.props.attrs)).getD []
      s.emitAll (updateDOMOfOps d prevAttrs f.props.attrs)

/-- `attachDOM2(fiber)` from index.tsx: `fiber.dom = createDOMOf(fiber)`
followed by `updateDOMOf(fiber)`. -/
def attachDOM2 (fid : Nat) (s : EngState) : EngState :=
  let r := createDOMOf fid s
  let s2 := r.2.modifyF fid (fun f => { f with dom := r.1 })
  updateDOMOfF fid s2

/-- The body of `reconcileChildren`'s `while` loop (index.tsx), one
iteration per call: `index` walks `elements`, `oldFiber` walks the
previous child chain via `sibling`, `prevSibling` is the previously
created fiber.  The loop runs while
`index < elements.length || oldFiber`; `fuel` bounds the iteration
count (the wrapper passes enough for any acyclic sibling chain). -/
def reconcileGo (wipId : Nat) (elements : List Element) :
    Nat → Nat → Option Nat → Option Nat → EngState → EngState
  | 0, _, _, _, s => s
  | fuel + 1, index, oldFiber, prevSibling, s =>
    if index < elements.length ∨ oldFiber.isSome then
      let elem? := elements[index]?
      let oldRec? := oldFiber.bind s.getF
      -- `oldFiber && fiber && fiber.type === oldFiber.type`
      let isSame : Bool :=
        match oldRec?, elem? with
        | some old, some e => e.ftypeOf == old.ftype
        | _, _ => false
      let (newFiber?, s1) :=
        if isSame then
          match oldFiber, oldRec?, elem? with
          | some oid, some old, some e =>
            let r := s.alloc
              { effectTag := some .update, ftype := old.ftype, props := e.propsOf,
                dom := old.dom, parent := some wipId, alternate := some oid }
            (some r.1, r.2)
          | _, _, _ => (none, s)
        else
          let (nf?, sa) :=
            match elem? with
            | some e =>
              let r := s.alloc
                { effectTag := some .placement, ftype := e.ftypeOf, props := e.propsOf,
                  dom := none, parent := some wipId, alternate := none }
              (some r.1, r.2)
            | none => (none, s)
          let sb :=
            match oldFiber with
            | some oid =>
              (sa.modifyF oid (fun f => { f with effectTag := some .deletion })).pushDeletion oid
            | none => sa
          (nf?, sb)
      -- `if (index === 0) wipFiber.child = newFiber; else if (fiber) prevSibling!.sibling = newFiber`
      let s2 :=
        if index == 0 then
          s1.modifyF wipId (fun f => { f with child := newFiber? })
        else
          match elem?, prevSibling with
          | some _, some ps => s1.modifyF ps (fun f => { f with sibling := newFiber? })
          | _, _ => s1
      let oldFiber' := oldFiber.bind (fun oid => (s2.getF oid).bind (fun f => f.sibling))
      reconcileGo wipId elements fuel (index + 1) oldFiber' newFiber? s2
    else s

/-- `reconcileChildren(wipFiber, elements)` from index.tsx: the old
chain starts at `wipFiber.alternate?.child`. -/
def reconcileChildren (wipId : Nat) (elements : List Element) (s : EngState) : EngState :=
  let oldFiber :=
    ((s.getF wipId).bind (fun f => f.alternate)).bind
      (fun a => (s.getF a).bind (fun f => f.child))
  reconcileGo wipId elements (elements.length + s.fibers.length + 1) 0 oldFiber none s

/-- `updateHostComponent(fiber)` from index.tsx: attach a host node if
absent, then reconcile `fiber.props.children`. -/
def updateHostComponent (fid : Nat) (s : EngState) : EngState :=
  let s1 :=
    match s.getF fid with
    | some f => if f.dom.isNone then attachDOM2 fid s else s
    | none => s
  reconcileChildren fid (((s1.getF fid).map (fun f => f.props.children)).getD []) s1

/-- `updateFunctionComponent(fiber)` from index.tsx: invoke the
component function on the fiber's props and reconcile the single
resulting element.  (The source also resets the module-level hook
cursor and the fiber's hook list before the call; the hook mechanism is
modelled separately below, and the components resolved through a
`CompEnv` are pure.) -/
def updateFunctionComponent (env : CompEnv) (fid : Nat) (s : EngState) : EngState :=
  match s.getF fid with
  | some f =>
    match f.ftype with
    | .fc cid => reconcileChildren fid [env cid f.props] s
    | _ => s
  | none => s

/-- The `while (nextFiber)` walk at the end of `performUnitOfWork`:
starting from a fiber, return its sibling if it has one, else climb to
the parent and retry; `none` once the walk steps above the root. -/
def upWalk (s : EngState) : Nat → Option Nat → Option Nat
  | _, none => none
  | 0, some _ => none
  | fuel + 1, some fid =>
    match s.getF fid with
    | none => none
    | some f =>
      match f.sibling with
      | some sib => some sib
      | none => upWalk s fuel f.parent

/-- The next-unit selection of `performUnitOfWork`: the fiber's child
if present, otherwise the upward sibling walk. -/
def stepNext (s : EngState) (fid : Nat) : Option Nat :=
  match s.getF fid with
  | none => none
  | some f =>
    match f.child with
    | some c => some c
    | none => upWalk s (s.fibers.length + 1) (some fid)

/-- `fiber.type instanceof Function`. -/
def isFC : FType → Bool
  | .fc _ => true
  | _ => false

/-- `performUnitOfWork(fiber)` from index.tsx: update the fiber
according to its kind, then return the next fiber to visit. -/
def performUnitOfWork (env : CompEnv) (fid : Nat) (s : EngState) : EngState × Option Nat :=
  let s' :=
    match s.getF fid with
    | some f =>
      if isFC f.ftype then updateFunctionComponent env fid s else updateHostComponent fid s
    | none => s
  (s', stepNext s' fid)

/-- The `while (!domParentFiber.dom)` climb of `commitWork`: the
nearest ancestor (starting from the given fiber reference) owning a
host node. -/
def findDomParent (s : EngState) : Nat → Option Nat → Option Nat
  | 0, _ => none
  | _, none => none
  | fuel + 1, some pid =>
    match s.getF pid with
    | none => none
    | some p => if p.dom.isSome then some pid else findDomParent s fuel p.parent

/-- Observer used to state properties of `commitDeletion`: the host
node of the nearest descendant-or-self reached by following `child`
links from a fiber (the node `commitDeletion` removes). -/
def nearestDomChild (s : EngState) : Nat → Nat → Option Nat
  | 0, _ => none
  | fuel + 1, fid =>
    match s.getF fid with
    | none => none
    | some f =>
      match f.dom with
      | some d => some d
      | none =>
        match f.child with
        | some c => nearestDomChild s fuel c
        | none => none

/-- `commitDeletion(fiber, domParent)` from index.tsx: remove
`fiber.dom` from `domParent` if the fiber owns a node, else recurse
into `fiber.child!`. -/
def commitDeletion : Nat → Nat → Nat → EngState → EngState
  | 0, _, _, s => s
  | fuel + 1, fid, domParent, s =>
    match s.getF fid with
    | none => s
    | some f =>
      match f.dom with
      | some d => s.emit (.removeChild domParent d)
      | none =>
        match f.child with
        | some c => commitDeletion fuel c domParent s
        | none => s

/-- `commitWork(fiber)` from index.tsx: locate the nearest dom-bearing
ancestor, apply the fiber's effect, then recurse into child and
sibling.  The `none` fallbacks model the source's non-null assertions,
which never fire on well-formed states. -/
def commitWork : Nat → Option Nat → EngState → EngState
  | 0, _, s => s
  | _ + 1, none, s => s
  | fuel + 1, some fid, s =>
    match s.getF fid with
    | none => s
    | some f =>
      match findDomParent s (s.fibers.length + 1) f.parent with
      | none => s
      | some dpid =>
        match (s.getF dpid).bind (fun p => p.dom) with
        | none => s
        | some domParent =>
          let s1 :=
            if f.effectTag == some .placement && f.dom.isSome then
              match f.dom with
              | some d => s.emit (.appendChild domParent d)
              | none => s
            else if f.effectTag == some .update && f.dom.isSome then
              updateDOMOfF fid s
            else if f.effectTag == some .deletion then
              commitDeletion (s.fibers.length + 1) fid domParent s
            else s
          let s2 := commitWork fuel f.child s1
          commitWork fuel f.sibling s2

/-- Phase 1 of `commitRoot`: `deletions!.forEach(commitWork)`. -/
def delPhase (s : EngState) : EngState :=
  (s.deletions.getD []).foldl
    (fun acc fid => commitWork (acc.fibers.length + 1) (some fid) acc) s

/-- `commitRoot()` from index.tsx: process the pending deletions, walk
the new tree from `wipRoot!.child`, then swap `currentRoot` to the
work-in-progress root and clear it.  (`commitRoot` is only invoked
under `wipRoot` being set; the `none` branch models that guard.) -/
def commitRoot (s : EngState) : EngState :=
  match s.wipRoot with
  | none => s
  | some w =>
    let s1 := delPhase s
    let s2 := commitWork (s1.fibers.length + 1) ((s1.getF w).bind (fun f => f.child)) s1
    { s2 with currentRoot := some w, wipRoot := none }

/-- `render(fiber, container)` from index.tsx: throw when the container
is absent; otherwise seed a fresh `ROOT_FIBER` work-in-progress root
with the element as sole child, reset the deletions list and set the
next unit of work. -/
def render (element : Element) (container : Option Nat) (s : EngState) :
    Except String EngState :=
  match container with
  | none => .error "no container"
  | some c =>
    let r := s.alloc
      { ftype := .root, dom := some c,
        props := { children := [element], attrs := [] },
        alternate := s.currentRoot }
    .ok { r.2 with wipRoot := some r.1, deletions := some [], nextUnitOfWork := some r.1 }

/-- The state a caller observes after calling `render` and catching any
thrown failure: a throw leaves the renderer state unchanged (the source
throws before touching any module-level variable). -/
def renderCaught (element : Element) (container : Option Nat) (s : EngState) : EngState :=
  match render element container s with
  | .error _ => s
  | .ok s' => s'

/-- One iteration of the `while (nextUnitOfWork && !shouldYield)` body:
`nextUnitOfWork = performUnitOfWork(nextUnitOfWork)`. -/
def unitStep (env : CompEnv) (s : EngState) : EngState :=
  match s.nextUnitOfWork with
  | none => s
  | some u =>
    let r := performUnitOfWork env u s
    { r.1 with nextUnitOfWork := r.2 }

/-- `k` unit-of-work iterations (stalling once no next fiber remains). -/
def unitIter (env : CompEnv) : Nat → EngState → EngState
  | 0, s => s
  | k + 1, s => unitIter env k (unitStep env s)

/-- The `while` loop of `workLoop(deadline)`: processes one fiber at a
time, consulting `deadline.timeRemaining() < 1` after each unit; `tr n`
is the value reported by the `(n+1)`-th `timeRemaining()` call.
Returns the state and the number of fibers processed. -/
def workLoopGo (env : CompEnv) : Nat → (Nat → Int) → Nat → EngState → EngState × Nat
  | 0, _, n, s => (s, n)
  | fuel + 1, tr, n, s =>
    match s.nextUnitOfWork with
    | none => (s, n)
    | some _ =>
      let s' := unitStep env s
      if tr n < 1 then (s', n + 1) else workLoopGo env fuel tr (n + 1) s'

/-- One idle slice of `workLoop(deadline)`: run the unit loop, then
`if (!nextUnitOfWork && wipRoot) commitRoot()`.  (The re-registration
with `requestIdleCallback` is the slice sequencing itself.) -/
def workLoopSlice (env : CompEnv) (fuel : Nat) (tr : Nat → Int) (s : EngState) : EngState :=
  let s' := (workLoopGo env fuel tr 0 s).1
  if s'.nextUnitOfWork = none ∧ s'.wipRoot ≠ none then commitRoot s' else s'

/-- A sequence of idle slices, each with its own fuel and deadline. -/
def runSlices (env : CompEnv) (ds : List (Nat × (Nat → Int))) (s : EngState) : EngState :=
  ds.foldl (fun acc d => workLoopSlice env d.1 d.2 acc) s

/-- The body of `reconcileChildren`'s loop as written in part_004.  It
differs from index.tsx in two ways: the deletion branch fires on
`oldFiber && sameType` (index.tsx and part_000 fire on a *mismatch*),
and the sibling link is written without the `else if (element)` guard
(`prevSibling!` there throws when the previous iteration produced no
fiber; that case is modelled as a skip). -/
def reconcileGoP4 (wipId : Nat) (elements : List Element) :
    Nat → Nat → Option Nat → Option Nat → EngState → EngState
  | 0, _, _, _, s => s
  | fuel + 1, index, oldFiber, prevSibling, s =>
    if index < elements.length ∨ oldFiber.isSome then
      let elem? := elements[index]?
      let oldRec? := oldFiber.bind s.getF
      let sameType : Bool :=
        match oldRec?, elem? with
        | some old, some e => e.ftypeOf == old.ftype
        | _, _ => false
      let (newFiber?, s1) :=
        if sameType then
          match oldFiber, oldRec?, elem? with
          | some oid, some old, some e =>
            let r := s.alloc
              { effectTag := some .update, ftype := old.ftype, props := e.propsOf,
                dom := old.dom, parent := some wipId, alternate := some oid }
            (some r.1, r.2)
          | _, _, _ => (none, s)
        else
          match elem? with
          | some e =>
            let r := s.alloc
              { effectTag := some .placement, ftype := e.ftypeOf, props := e.propsOf,
                dom := none, parent := some wipId, alternate := none }
            (some r.1, r.2)
          | none => (none, s)
      -- `if (oldFiber && sameType) { oldFiber.effectTag = "DELETION"; deletions!.push(oldFiber); }`
      let s2 :=
        if sameType then
          match oldFiber with
          | some oid =>
            (s1.modifyF oid (fun f => { f with effectTag := some .deletion })).pushDeletion oid
          | none => s1
        else s1
      -- `if (oldFiber) oldFiber = oldFiber.sibling` (before the linking in part_004)
      let oldFiber' := oldFiber.bind (fun oid => (s2.getF oid).bind (fun f => f.sibling))
      let s3 :=
        if index == 0 then
          s2.modifyF wipId (fun f => { f with child := newFiber? })
        else
          match prevSibling with
          | some ps => s2.modifyF ps (fun f => { f with sibling := newFiber? })
          | none => s2
      reconcileGoP4 wipId elements fuel (index + 1) oldFiber' newFiber? s3
    else s

/-- `reconcileChildren(wipFiber, elements)` as written in part_004. -/
def reconcileChildrenP4 (wipId : Nat) (elements : List Element) (s : EngState) : EngState :=
  let oldFiber :=
    ((s.getF wipId).bind (fun f => f.alternate)).bind
      (fun a => (s.getF a).bind (fun f => f.child))
  reconcileGoP4 wipId elements (elements.length + s.fibers.length + 1) 0 oldFiber none s

/-- A hook record: `{ state, queue }` with a queue of pending
state-transition actions. -/
structure Hook (T : Type) where
  state : T
  queue : List (T → T)

/-- The module-level context `useState` reads and writes: the hook list
of `wipFiber.alternate` (if any), the hook cursor, and the hook list
being built on `wipFiber`. -/
structure HookCtx (T : Type) where
  altHooks : Option (List (Hook T))
  hookIndex : Nat
  hooks : List (Hook T)

/-- `useState(initial)` from index.tsx: look up the alternate's hook at
the current index, start from its stored state (else `initial`), replay
its queued actions in order, push a fresh hook (final state, empty
queue) onto the current fiber's hook list, advance the cursor, and
return the final state.  (The returned setter is modelled by `setState`
below.) -/
def useState {T : Type} (initial : T) (ctx : HookCtx T) : T × HookCtx T :=
  let oldHook := ctx.altHooks.bind (fun hs => hs[ctx.hookIndex]?)
  let state0 :=
    match oldHook with
    | some h => h.state
    | none => initial
  let actions :=
    match oldHook with
    | some h => h.queue
    | none => []
  let finalState := actions.foldl (fun st a => a st) state0
  let hook : Hook T := { state := finalState, queue := [] }
  (hook.state,
    { altHooks := ctx.altHooks, hookIndex := ctx.hookIndex + 1,
      hooks := ctx.hooks ++ [hook] })

/-- The setter closure returned by `useState`: push the action onto the
captured hook's queue, then rebuild the work-in-progress root from
`currentRoot` (`dom: currentRoot.dom`, `props: currentRoot.props`,
`alternate: currentRoot`), reset `deletions` and set `nextUnitOfWork`.
The source dereferences `currentRoot` without a check (its own comment
flags this); a missing committed root therefore throws, modelled as
`none`. -/
def setState {T : Type} (action : T → T) (hook : Hook T) (s : EngState) :
    Option (Hook T × EngState) :=
  let hook' := { hook with queue := hook.queue ++ [action] }
  match s.currentRoot with
  | none => none
  | some cr =>
    match s.getF cr with
    | none => none
    | some crF =>
      let r := s.alloc
        { ftype := .root, dom := crF.dom, props := crF.props, alternate := some cr }
      some (hook', { r.2 with wipRoot := some r.1, deletions := some [], nextUnitOfWork := some r.1 })

/-! Observers for stating traversal properties: rose trees over fiber
ids, their preorder listing, and a representation predicate tying a
rose tree to the child/sibling/parent pointers of the fiber arena. -/

/-- A rose tree of fiber ids. -/
inductive RTree where
  | node (fid : Nat) (children : List RTree)

/-- Root id of a rose tree. -/
def RTree.fidOf : RTree → Nat
  | .node i _ => i

/-- Id of the first tree in a chain, if any (models the `child` pointer
set up for a reconciled child list). -/
def chainHead : List RTree → Option Nat
  | [] => none
  | t :: _ => some t.fidOf

mutual
/-- Depth-first pre-order listing of a rose tree. -/
def preorder : RTree → List Nat
  | .node i cs => i :: preorderList cs

/-- Pre-order listing of a chain of trees. -/
def preorderList : List RTree → List Nat
  | [] => []
  | t :: ts => preorder t ++ preorderList ts
end

mutual
/-- Number of nodes of a rose tree. -/
def sizeT : RTree → Nat
  | .node _ cs => 1 + sizeLC cs

/-- Number of nodes of a chain of trees. -/
def sizeLC : List RTree → Nat
  | [] => 0
  | t :: ts => sizeT t + sizeLC ts
end

mutual
/-- Length of the rightmost spine of a rose tree (the number of
parent-steps the upward walk takes from the last pre-order node back
above the tree's root). -/
def rightDepth : RTree → Nat
  | .node _ cs => 1 + rightDepthC cs

/-- Rightmost-spine length contributed by a chain: that of its last
element. -/
def rightDepthC : List RTree → Nat
  | [] => 0
  | [t] => rightDepth t
  | _ :: ts => rightDepthC ts
end

mutual
/-- The last node of a rose tree in pre-order (its deepest rightmost
node). -/
def lastId : RTree → Nat
  | .node i cs => lastIdC i cs

/-- Last pre-order node of a chain, with a default for the empty
chain. -/
def lastIdC (dflt : Nat) : List RTree → Nat
  | [] => dflt
  | [t] => lastId t
  | _ :: ts => lastIdC dflt ts
end

mutual
/-- `RepF s p sib t`: the fiber arena of `s` realizes the rose tree `t`
at `t`'s root fiber, whose record has `parent = p`, `sibling = sib`,
and whose `child` pointer heads the chain realizing `t`'s children. -/
def RepF (s : EngState) (p sib : Option Nat) : RTree → Prop
  | .node fid cs =>
      ∃ f : FiberRec, s.getF fid = some f ∧ f.parent = p ∧ f.sibling = sib
        ∧ f.child = chainHead cs ∧ RepChain s fid cs

/-- `RepChain s pid ts`: the arena realizes `ts` as a sibling chain of
children of fiber `pid`. -/
def RepChain (s : EngState) (pid : Nat) : List RTree → Prop
  | [] => True
  | t :: ts => RepF s (some pid) (chainHead ts) t ∧ RepChain s pid ts
end

/-- `SuccOK s l e`: walking `stepNext` along the list `l` visits its
elements consecutively, and from the last element steps to `e`. -/
def SuccOK (s : EngState) : List Nat → Option Nat → Prop
  | [], _ => True
  | [x], e => stepNext s x = e
  | x :: y :: rest, e => stepNext s x = some y ∧ SuccOK s (y :: rest) e

/-- The value of the upward walk beyond a subtree whose root fiber has
sibling `sib`: the sibling if there is one, else the walk continues
from the parent reference `p` with the remaining fuel `k`. -/
def sibExit (s : EngState) (k : Nat) (p : Option Nat) : Option Nat → Option Nat
  | some x => some x
  | none => upWalk s k p

/-- Is a host operation a child removal? -/
def isRemoveChildOp : HostOp → Bool
  | .removeChild _ _ => true
  | _ => false

/-! Concrete scenario: render `T1 = div[a, b]` into a live container
(host node 0), let the pass commit, then render `T2 = div[a]` and let
the second pass commit. -/

/-- An (unused) component environment for scenario runs — the scenario
trees contain no function components. -/
def env0 : CompEnv := fun _ _ => Element.mk (.tag "div") [] []

/-- `T1 = div[a, b]`. -/
def elT1 : Element :=
  .mk (.tag "div") [] [.mk (.tag "a") [] [], .mk (.tag "b") [] []]

/-- `T2 = div[a]`. -/
def elT2 : Element :=
  .mk (.tag "div") [] [.mk (.tag "a") [] []]

/-- Initial renderer state: empty arena, host node 0 is the live
container. -/
def state0 : EngState := { domCount := 1 }

/-- A generous deadline: never reports below-threshold time. -/
def trGen : Nat → Int := fun _ => 5

/-- State after `render(T1, container)`. -/
def stateA : EngState := renderCaught elT1 (some 0) state0

/-- State after the first pass runs to completion and commits in one
idle slice. -/
def state1 : EngState := workLoopSlice env0 10 trGen stateA

/-- State after `render(T2, container)`. -/
def stateB : EngState := renderCaught elT2 (some 0) state1

/-- State after the second pass runs to completion and commits. -/
def state2 : EngState := workLoopSlice env0 10 trGen stateB

/-! Concrete heap for exercising `reconcileChildren` directly: fiber 0
is the work-in-progress parent, its alternate (fiber 1) has a single
old child (fiber 2) of kind `div` owning host node 9, and the new child
list is a single `div` element — a kind match at position 0. -/

/-- Old child fiber of kind `div` (same kind as the new element). -/
def c1OldChild : FiberRec :=
  { ftype := .tag "div", dom := some 9, parent := some 1, effectTag := some .placement }

/-- The alternate (previously committed parent). -/
def c1OldRoot : FiberRec := { ftype := .root, dom := some 0, child := some 2 }

/-- The work-in-progress parent fiber. -/
def c1Wip : FiberRec := { ftype := .root, dom := some 0, alternate := some 1 }

/-- The heap for the matched-kind reconciliation scenario. -/
def c1State : EngState :=
  { fibers := [c1Wip, c1OldRoot, c1OldChild], deletions := some [] }

/-- The new child list: one `div` element, kind-matching the old child. -/
def c1Elems : List Element := [.mk (.tag "div") [] []]

/-! Concrete heap for the traversal claim: a well-formed
work-in-progress tree `0 → 1 → [2, 3]`. -/

/-- Fiber arena realizing the tree `0[1[2, 3]]`. -/
def c9State : EngState :=
  { fibers :=
      [ { ftype := .root, child := some 1 },
        { ftype := .tag "div", parent := some 0, child := some 2 },
        { ftype := .tag "a", parent := some 1, sibling := some 3 },
        { ftype := .tag "b", parent := some 1 } ] }

/-- The rose tree realized by `c9State`. -/
def c9Tree : RTree := .node 0 [.node 1 [.node 2 [], .node 3 []]]

/-- Hook context whose alternate hook stores state 1 with two queued
increment actions (the spec's hook-replay scenario). -/
def hookCtx12 : HookCtx Int :=
  { altHooks := some [{ state := 1, queue := [fun c => c + 1, fun c => c + 1] }],
    hookIndex := 0, hooks := [] }

/-- `TraceOnly s t`: `t` is `s` with some host operations appended to
the trace and nothing else changed (the shape of every commit-phase
step, which mutates the host tree but never the fiber arena). -/
def TraceOnly (s t : EngState) : Prop :=
  ∃ d, t = { s with trace := s.trace ++ d }

/-- A deadline that reports below-threshold time after the second
processed fiber. -/
def trCut : Nat → Int := fun k => if k < 1 then 5 else 0

/-! ### Helper lemmas about property bags -/

theorem getProp_isSome_of_mem_keys {bag : PropBag} {k : String}
    (h : k ∈ keysOf bag) : (getProp bag k).isSome := by
  unfold keysOf at h
  obtain ⟨p, hp, hk⟩ := List.mem_map.mp h
  have hf : (bag.find? (fun q => q.1 == k)).isSome :=
    List.find?_isSome.mpr ⟨p, hp, by simp [hk]⟩
  obtain ⟨q, hq⟩ := Option.isSome_iff_exists.mp hf
  unfold getProp
  simp [hq]

theorem getProp_eq_none_of_hasProp_false {bag : PropBag} {k : String}
    (h : hasProp bag k = false) : getProp bag k = none := by
  unfold hasProp at h
  unfold getProp
  cases hf : bag.find? (fun q => q.1 == k) with
  | none => rfl
  | some q => rw [hf] at h; simp at h

theorem hasProp_iff_mem_keys {bag : PropBag} {k : String} :
    hasProp bag k = true ↔ k ∈ keysOf bag := by
  unfold hasProp keysOf
  rw [List.find?_isSome]
  constructor
  · rintro ⟨q, hq, hqk⟩
    exact List.mem_map.mpr ⟨q, hq, by simpa using hqk⟩
  · intro h
    obtain ⟨p, hp, hk⟩ := List.mem_map.mp h
    exact ⟨p, hp, by simp [hk]⟩

theorem mem_removedListenerNames {prev next : PropBag} {k : String} :
    k ∈ removedListenerNames prev next ↔
      k ∈ keysOf prev ∧ isEvent k = true ∧ getProp prev k ≠ getProp next k := by
  unfold removedListenerNames isNewOrGone isNew
  simp [List.mem_filter, bne_iff_ne, and_assoc]
  tauto

theorem mem_removedPropNames {prev next : PropBag} {k : String} :
    k ∈ removedPropNames prev next ↔
      k ∈ keysOf prev ∧ isProperty k = true ∧ hasProp next k = false := by
  unfold removedPropNames isGone
  simp [List.mem_filter, and_assoc]
  tauto

theorem mem_setPropNames {prev next : PropBag} {k : String} :
    k ∈ setPropNames prev next ↔
      k ∈ keysOf next ∧ isProperty k = true ∧ getProp prev k ≠ getProp next k := by
  unfold setPropNames isNew
  simp [List.mem_filter, bne_iff_ne, and_assoc]
  tauto

theorem mem_addedListenerNames {prev next : PropBag} {k : String} :
    k ∈ addedListenerNames prev next ↔
      k ∈ keysOf next ∧ isEvent k = true ∧ getProp prev k ≠ getProp next k := by
  unfold addedListenerNames isNew
  simp [List.mem_filter, bne_iff_ne, and_assoc]
  tauto

theorem isProperty_iff {k : String} :
    isProperty k = true ↔ k ≠ "children" ∧ isEvent k = false := by
  unfold isProperty
  simp [bne_iff_ne]

theorem removedListenerNames_p0_eq (prev next : PropBag) :
    removedListenerNamesP0 prev next = removedListenerNames prev next := by
  unfold removedListenerNamesP0 removedListenerNames
  apply List.filter_congr
  intro k hk
  have hkp : k ∈ keysOf prev := (List.mem_filter.mp hk).1
  unfold isNewOrGone
  cases hn : hasProp next k with
  | true => simp
  | false =>
    have h1 : getProp next k = none := getProp_eq_none_of_hasProp_false hn
    have h2 : (getProp prev k).isSome := getProp_isSome_of_mem_keys hkp
    obtain ⟨v, hv⟩ := Option.isSome_iff_exists.mp h2
    simp [isNew, h1, hv]

/-- C10: for every pair of previous and next property bags,
`updateDOMOf` in index.tsx performs the same host-node mutations, in
the same order, as `updateDom` in part_000.  The only textual
difference is the removed-listener filter: index.tsx's `isNewOrGone`
collapses to `isNew` (its `isGone` disjunct is never consulted because
`||` was applied to two function values), and part_000's explicit
`!(key in next) || isNew` filter agrees with plain `isNew` on every key
of the previous bag, since a key present in `prev` but absent in `next`
always satisfies `prev[key] !== next[key]`. -/
theorem updateDOMOf_equiv_updateDom (dom : Nat) (prev next : PropBag) :
    updateDOMOfOps dom prev next = updateDomOps dom prev next := by
  unfold updateDOMOfOps updateDomOps
  rw [removedListenerNames_p0_eq]

/-- C7 counterexample: the four computed name sets do **not** partition
the affected names — a listener whose handler changed appears in both
the remove-listener set and the add-listener set.  Witnessed at
`prev = { onClick: f }`, `next = { onClick: g }` with `f !== g`. -/
theorem updateDOMOf_sets_overlap_cex :
    "onClick" ∈ removedListenerNames [("onClick", Value.fnRef 0)] [("onClick", Value.fnRef 1)]
    ∧ "onClick" ∈ addedListenerNames [("onClick", Value.fnRef 0)] [("onClick", Value.fnRef 1)]
    ∧ ¬ List.Disjoint
        (removedListenerNames [("onClick", Value.fnRef 0)] [("onClick", Value.fnRef 1)])
        (addedListenerNames [("onClick", Value.fnRef 0)] [("onClick", Value.fnRef 1)]) := by
  refine ⟨by decide, by decide, ?_⟩
  intro h
  exact @h "onClick" (by decide) (by decide)

/-- C7 (amended): the host-node binder computes the four affected name
sets exactly as claimed — listener names only in previous or changed
are removed; non-listener, non-children names absent in next are reset;
non-listener, non-children names new or changed are assigned; listener
names new or changed are added; a name is a listener iff it starts with
"on"; the bound event name is the name lower-cased with the first two
characters stripped; and "children" is never in any set.  The sets are
pairwise disjoint **except** that a listener name whose value changed
while present in both bags appears in both the remove-listener and
add-listener sets (so they do not partition the affected names). -/
theorem updateDOMOf_four_sets (prev next : PropBag) (k : String) (dom : Nat) :
    (k ∈ removedListenerNames prev next ↔
       isEvent k = true ∧ k ∈ keysOf prev ∧
         (hasProp next k = false ∨ getProp prev k ≠ getProp next k))
  ∧ (k ∈ removedPropNames prev next ↔
       isEvent k = false ∧ k ≠ "children" ∧ k ∈ keysOf prev ∧ hasProp next k = false)
  ∧ (k ∈ setPropNames prev next ↔
       isEvent k = false ∧ k ≠ "children" ∧ k ∈ keysOf next ∧
         getProp prev k ≠ getProp next k)
  ∧ (k ∈ addedListenerNames prev next ↔
       isEvent k = true ∧ k ∈ keysOf next ∧ getProp prev k ≠ getProp next k)
  ∧ (¬ (k ∈ removedListenerNames prev next ∧ k ∈ removedPropNames prev next))
  ∧ (¬ (k ∈ removedListenerNames prev next ∧ k ∈ setPropNames prev next))
  ∧ (¬ (k ∈ removedPropNames prev next ∧ k ∈ setPropNames prev next))
  ∧ (¬ (k ∈ removedPropNames prev next ∧ k ∈ addedListenerNames prev next))
  ∧ (¬ (k ∈ setPropNames prev next ∧ k ∈ addedListenerNames prev next))
  ∧ ((k ∈ removedListenerNames prev next ∧ k ∈ addedListenerNames prev next) ↔
       (isEvent k = true ∧ k ∈ keysOf prev ∧ k ∈ keysOf next ∧
         getProp prev k ≠ getProp next k))
  ∧ (isEvent k = true ↔ ∃ rest, k.data = 'o' :: 'n' :: rest)
  ∧ (k ∈ removedListenerNames prev next →
       HostOp.removeListener dom (String.mk ((k.data.map Char.toLower).drop 2))
           ((getProp prev k).getD (Value.str ""))
         ∈ updateDOMOfOps dom prev next)
  ∧ (k ∈ addedListenerNames prev next →
       HostOp.addListener dom (String.mk ((k.data.map Char.toLower).drop 2))
           ((getProp next k).getD (Value.str ""))
         ∈ updateDOMOfOps dom prev next)
  ∧ ("children" ∉ removedPropNames prev next ∧ "children" ∉ setPropNames prev next ∧
       "children" ∉ removedListenerNames prev next ∧ "children" ∉ addedListenerNames prev next) := by
  have hprev : ∀ k', k' ∈ keysOf prev → (getProp prev k').isSome :=
    fun _ h => getProp_isSome_of_mem_keys h
  have hnext : ∀ k', k' ∈ keysOf next → (getProp next k').isSome :=
    fun _ h => getProp_isSome_of_mem_keys h
  refine ⟨?_, ?_, ?_, ?_, ?_, ?_, ?_, ?_, ?_, ?_, ?_, ?_, ?_, ?_⟩
  · rw [mem_removedListenerNames]
    constructor
    · rintro ⟨h1, h2, h3⟩
      exact ⟨h2, h1, Or.inr h3⟩
    · rintro ⟨h2, h1, h3 | h3⟩
      · refine ⟨h1, h2, ?_⟩
        have hg : getProp next k = none := getProp_eq_none_of_hasProp_false h3
        obtain ⟨v, hv⟩ := Option.isSome_iff_exists.mp (hprev k h1)
        rw [hg, hv]
        simp
      · exact ⟨h1, h2, h3⟩
  · rw [mem_removedPropNames]
    rw [isProperty_iff]
    tauto
  · rw [mem_setPropNames]
    rw [isProperty_iff]
    tauto
  · rw [mem_addedListenerNames]
    tauto
  · rw [mem_removedListenerNames, mem_removedPropNames, isProperty_iff]
    rintro ⟨⟨_, h1, _⟩, _, ⟨_, h2⟩, _⟩
    rw [h1] at h2
    cases h2
  · rw [mem_removedListenerNames, mem_setPropNames, isProperty_iff]
    rintro ⟨⟨_, h1, _⟩, _, ⟨_, h2⟩, _⟩
    rw [h1] at h2
    cases h2
  · rw [mem_removedPropNames, mem_setPropNames]
    rintro ⟨⟨_, _, h1⟩, hn2, _, _⟩
    rw [hasProp_iff_mem_keys.mpr hn2] at h1
    cases h1
  · rw [mem_removedPropNames, mem_addedListenerNames, isProperty_iff]
    rintro ⟨⟨_, ⟨_, h1⟩, _⟩, _, h2, _⟩
    rw [h1] at h2
    cases h2
  · rw [mem_setPropNames, mem_addedListenerNames, isProperty_iff]
    rintro ⟨⟨_, ⟨_, h1⟩, _⟩, _, h2, _⟩
    rw [h1] at h2
    cases h2
  · rw [mem_removedListenerNames, mem_addedListenerNames]
    tauto
  · unfold isEvent
    constructor
    · intro h
      match hd : k.data with
      | 'o' :: 'n' :: rest => exact ⟨rest, rfl⟩
      | [] => rw [hd] at h; cases h
      | [c] => rw [hd] at h; revert h; split <;> simp_all
      | c1 :: c2 :: rest => rw [hd] at h; revert h; split <;> simp_all
    · rintro ⟨rest, hr⟩
      rw [hr]
      rfl
  · intro h
    unfold updateDOMOfOps
    refine List.mem_append.mpr (Or.inl (List.mem_append.mpr (Or.inl
      (List.mem_append.mpr (Or.inl ?_)))))
    exact List.mem_map.mpr ⟨k, h, rfl⟩
  · intro h
    unfold updateDOMOfOps
    refine List.mem_append.mpr (Or.inr ?_)
    exact List.mem_map.mpr ⟨k, h, rfl⟩
  · refine ⟨?_, ?_, ?_, ?_⟩
    · rw [mem_removedPropNames, isProperty_iff]
      rintro ⟨_, ⟨h, _⟩, _⟩
      exact h rfl
    · rw [mem_setPropNames, isProperty_iff]
      rintro ⟨_, ⟨h, _⟩, _⟩
      exact h rfl
    · rw [mem_removedListenerNames]
      rintro ⟨_, h, _⟩
      revert h
      decide
    · rw [mem_addedListenerNames]
      rintro ⟨_, h, _⟩
      revert h
      decide

/-- C4: `useState` starts from the alternate's hook at the current
index when present (else from `initial`), folds every action queued on
that old hook over the state in queue order, returns the resulting
state before any new action is queued, appends a fresh hook record with
that state and an empty queue to the current fiber's hook list, and
advances the hook cursor; in particular, initial state 1 with two
queued increment actions yields 3. -/
theorem useState_replays_pending_actions (T : Type) (initial : T) (ctx : HookCtx T) :
    ((useState initial ctx).1 =
       (match ctx.altHooks.bind (fun hs => hs[ctx.hookIndex]?) with
        | some h => h.queue.foldl (fun st a => a st) h.state
        | none => initial))
  ∧ (useState initial ctx).2.hooks =
       ctx.hooks ++ [{ state := (useState initial ctx).1, queue := [] }]
  ∧ (useState initial ctx).2.hookIndex = ctx.hookIndex + 1
  ∧ (useState initial ctx).2.altHooks = ctx.altHooks
  ∧ (useState 1 hookCtx12).1 = 3 := by
  refine ⟨?_, rfl, rfl, rfl, rfl⟩
  unfold useState
  cases hc : ctx.altHooks.bind (fun hs => hs[ctx.hookIndex]?) <;> simp [hc]

/-- C5: the setter returned by `useState` appends the given action to
the creating hook's pending queue and synchronously builds a fresh
work-in-progress root whose `dom` and `props` are the current committed
root's own `dom` and `props` and whose `alternate` is the current
committed root, resets the pending-deletions list and points
`nextUnitOfWork` at that root — under the precondition that a committed
root exists; with no committed root the unchecked `currentRoot`
dereference fails (modelled as `none`). -/
theorem setState_schedules_toplevel_rerender (T : Type) (action : T → T) (hk : Hook T)
    (s : EngState) (cr : Nat) (crF : FiberRec)
    (h1 : s.currentRoot = some cr) (h2 : s.getF cr = some crF) :
    (setState action hk s =
       some ({ hk with queue := hk.queue ++ [action] },
         { s with
             fibers := s.fibers ++
               [{ ftype := .root, dom := crF.dom, props := crF.props,
                  alternate := some cr }],
             wipRoot := some s.fibers.length,
             deletions := some [],
             nextUnitOfWork := some s.fibers.length }))
  ∧ (∀ s2 : EngState, s2.currentRoot = none → setState action hk s2 = none) := by
  constructor
  · simp [setState, EngState.alloc, h1, h2]
  · intro s2 h
    simp [setState, h]

/-- C5 witness: calling the setter on the committed state of the first
pass queues the action and schedules a fresh root pass. -/
theorem setState_schedules_witness :
    state1.currentRoot = some 0
    ∧ ((setState (fun c => c + 1) ({ state := 0, queue := [] } : Hook Int) state1).map
         (fun r => (r.1.queue.length, r.2.wipRoot, r.2.deletions, r.2.nextUnitOfWork,
                    r.2.fibers.length)))
        = some (1, some 4, some [], some 4, 5) := by
  have h := setState_schedules_toplevel_rerender Int (fun c => c + 1)
    { state := 0, queue := [] } state1 0
    ((state1.getF 0).getD { ftype := .root }) rfl rfl
  refine ⟨rfl, ?_⟩
  rw [h.1]
  decide

/-- C8: `render(element, container)` throws when the container is
absent and leaves the renderer state unchanged in that case; for every
present container it seeds a work-in-progress root whose
`props.children` is exactly `[element]`, whose `dom` is the container,
and whose `alternate` is the current committed root, resets the
pending-deletions list to empty, and sets the next unit of work to that
root. -/
theorem render_contract (e : Element) (s : EngState) :
    render e none s = Except.error "no container"
  ∧ renderCaught e none s = s
  ∧ (∀ c : Nat,
      render e (some c) s = Except.ok
        { s with
            fibers := s.fibers ++
              [{ ftype := .root, dom := some c,
                 props := { children := [e], attrs := [] },
                 alternate := s.currentRoot }],
            wipRoot := some s.fibers.length,
            deletions := some [],
            nextUnitOfWork := some s.fibers.length }
      ∧ (renderCaught e (some c) s).getF s.fibers.length =
          some { ftype := .root, dom := some c,
                 props := { children := [e], attrs := [] },
                 alternate := s.currentRoot }) := by
  refine ⟨rfl, rfl, fun c => ⟨rfl, ?_⟩⟩
  unfold renderCaught render EngState.alloc EngState.getF
  simp [List.getElem?_concat_length]

/-- C1 (code-bug evidence): at a position where the old fiber and the
new element have the same kind, index.tsx's `reconcileChildren`
produces an `UPDATE` fiber reusing the old fiber's host node with the
old fiber as alternate and records **no** deletion, while part_004's
`reconcileChildren` (whose deletion branch reads `oldFiber && sameType`
instead of a kind mismatch) tags that matched old fiber `DELETION` and
appends it to the pending-deletions list. -/
theorem reconcileChildren_matched_kind_divergence :
    ((reconcileChildren 0 c1Elems c1State).deletions = some []
      ∧ ((reconcileChildren 0 c1Elems c1State).getF 2).map (fun f => f.effectTag)
          = some (some .placement)
      ∧ ((reconcileChildren 0 c1Elems c1State).getF 3).map
            (fun f => (f.effectTag, f.dom, f.alternate, f.parent))
          = some (some .update, some 9, some 2, some 0)
      ∧ ((reconcileChildren 0 c1Elems c1State).getF 0).map (fun f => f.child)
          = some (some 3))
  ∧ ((reconcileChildrenP4 0 c1Elems c1State).deletions = some [2]
      ∧ ((reconcileChildrenP4 0 c1Elems c1State).getF 2).map (fun f => f.effectTag)
          = some (some .deletion)
      ∧ ((reconcileChildrenP4 0 c1Elems c1State).getF 3).map
            (fun f => (f.effectTag, f.dom, f.alternate))
          = some (some .update, some 9, some 2)) := by
  exact ⟨⟨rfl, rfl, rfl, rfl⟩, rfl, rfl, rfl⟩

/-- C6: rendering `T1 = div[a, b]`, committing, then rendering
`T2 = div[a]` and letting that pass complete removes host node `b`
(node 3) from its parent `div` (node 1, attached to the live container,
node 0) exactly once over the whole run; no removal is performed before
the second pass has processed all of its fibers (no `removeChild`
appears in the trace at any point during the pass), and the removal
happens in the commit that follows. -/
theorem deletion_reaches_host_exactly_once :
    state2.trace.filter isRemoveChildOp = [HostOp.removeChild 1 3]
  ∧ state1.trace.filter isRemoveChildOp = []
  ∧ HostOp.appendChild 0 1 ∈ state1.trace
  ∧ HostOp.appendChild 1 3 ∈ state1.trace
  ∧ (∀ k, k ≤ 3 → (unitIter env0 k stateB).trace.filter isRemoveChildOp = [])
  ∧ (unitIter env0 3 stateB).nextUnitOfWork = none
  ∧ state2.currentRoot = some 4
  ∧ state2.wipRoot = none := by
  refine ⟨rfl, rfl, by decide, by decide, by decide, rfl, rfl, rfl⟩

/-- C7 witness: concrete instance of the four-set characterization at
`prev = { onClick: f, style: "x" }`, `next = { onClick: g }`. -/
theorem updateDOMOf_four_sets_witness :
    "onClick" ∈ removedListenerNames
        [("onClick", Value.fnRef 0), ("style", Value.str "x")] [("onClick", Value.fnRef 1)]
    ∧ HostOp.removeListener 7 (String.mk ((("onClick").data.map Char.toLower).drop 2))
          ((getProp [("onClick", Value.fnRef 0), ("style", Value.str "x")] "onClick").getD (Value.str ""))
        ∈ updateDOMOfOps 7
            [("onClick", Value.fnRef 0), ("style", Value.str "x")] [("onClick", Value.fnRef 1)]
    ∧ HostOp.addListener 7 (String.mk ((("onClick").data.map Char.toLower).drop 2))
          ((getProp [("onClick", Value.fnRef 1)] "onClick").getD (Value.str ""))
        ∈ updateDOMOfOps 7
            [("onClick", Value.fnRef 0), ("style", Value.str "x")] [("onClick", Value.fnRef 1)]
    ∧ "children" ∉ setPropNames
        [("onClick", Value.fnRef 0), ("style", Value.str "x")] [("onClick", Value.fnRef 1)] := by
  obtain ⟨h1, h2, h3, h4, h5, h6, h7, h8, h9, h10, h11, h12, h13, h14⟩ :=
    updateDOMOf_four_sets
      [("onClick", Value.fnRef 0), ("style", Value.str "x")] [("onClick", Value.fnRef 1)]
      "onClick" 7
  exact ⟨h1.mpr (by decide), h12 (h1.mpr (by decide)), h13 (h4.mpr (by decide)), h14.2.1⟩

/-! ### Trace-extension lemmas for the commit phase -/

theorem traceOnly_refl (s : EngState) : TraceOnly s s :=
  ⟨[], by simp⟩

theorem traceOnly_trans {s t u : EngState} (h1 : TraceOnly s t) (h2 : TraceOnly t u) :
    TraceOnly s u := by
  obtain ⟨d1, rfl⟩ := h1
  obtain ⟨d2, rfl⟩ := h2
  exact ⟨d1 ++ d2, by simp⟩

theorem traceOnly_emit (s : EngState) (op : HostOp) : TraceOnly s (s.emit op) :=
  ⟨[op], rfl⟩

theorem traceOnly_emitAll (s : EngState) (ops : List HostOp) : TraceOnly s (s.emitAll ops) :=
  ⟨ops, rfl⟩

theorem TraceOnly.fibers_eq {s t : EngState} (h : TraceOnly s t) : t.fibers = s.fibers := by
  obtain ⟨d, rfl⟩ := h; rfl

theorem TraceOnly.getF_eq {s t : EngState} (h : TraceOnly s t) (i : Nat) :
    t.getF i = s.getF i := by
  obtain ⟨d, rfl⟩ := h; rfl

theorem TraceOnly.wipRoot_eq {s t : EngState} (h : TraceOnly s t) : t.wipRoot = s.wipRoot := by
  obtain ⟨d, rfl⟩ := h; rfl

theorem TraceOnly.currentRoot_eq {s t : EngState} (h : TraceOnly s t) :
    t.currentRoot = s.currentRoot := by
  obtain ⟨d, rfl⟩ := h; rfl

theorem TraceOnly.nextUnitOfWork_eq {s t : EngState} (h : TraceOnly s t) :
    t.nextUnitOfWork = s.nextUnitOfWork := by
  obtain ⟨d, rfl⟩ := h; rfl

theorem TraceOnly.deletions_eq {s t : EngState} (h : TraceOnly s t) :
    t.deletions = s.deletions := by
  obtain ⟨d, rfl⟩ := h; rfl

theorem TraceOnly.trace_delta {s t : EngState} (h : TraceOnly s t) :
    ∃ d, t.trace = s.trace ++ d := by
  obtain ⟨d, rfl⟩ := h; exact ⟨d, rfl⟩

theorem updateDOMOfF_traceOnly (fid : Nat) (s : EngState) : TraceOnly s (updateDOMOfF fid s) := by
  cases hf : s.getF fid with
  | none => simp only [updateDOMOfF, hf]; exact traceOnly_refl s
  | some f =>
    cases hd : f.dom with
    | none => simp only [updateDOMOfF, hf, hd]; exact traceOnly_refl s
    | some d => simp only [updateDOMOfF, hf, hd]; exact traceOnly_emitAll s _

theorem commitDeletion_traceOnly :
    ∀ (fuel fid dp : Nat) (s : EngState), TraceOnly s (commitDeletion fuel fid dp s) := by
  intro fuel
  induction fuel with
  | zero => intro fid dp s; exact traceOnly_refl s
  | succ n ih =>
    intro fid dp s
    cases hf : s.getF fid with
    | none => simp only [commitDeletion, hf]; exact traceOnly_refl s
    | some f =>
      cases hd : f.dom with
      | some d => simp only [commitDeletion, hf, hd]; exact traceOnly_emit s _
      | none =>
        cases hc : f.child with
        | some c => simp only [commitDeletion, hf, hd, hc]; exact ih c dp s
        | none => simp only [commitDeletion, hf, hd, hc]; exact traceOnly_refl s

theorem commitDeletion_emits :
    ∀ (fuel fid dp : Nat) (s : EngState) (nd : Nat),
      nearestDomChild s fuel fid = some nd →
      commitDeletion fuel fid dp s = s.emit (.removeChild dp nd) := by
  intro fuel
  induction fuel with
  | zero => intro fid dp s nd h; simp [nearestDomChild] at h
  | succ n ih =>
    intro fid dp s nd h
    cases hf : s.getF fid with
    | none => simp only [nearestDomChild, hf] at h; cases h
    | some f =>
      cases hd : f.dom with
      | some d =>
        simp only [nearestDomChild, hf, hd] at h
        cases h
        simp only [commitDeletion, hf, hd]
      | none =>
        cases hc : f.child with
        | some c =>
          simp only [nearestDomChild, hf, hd, hc] at h
          simp only [commitDeletion, hf, hd, hc]
          exact ih c dp s nd h
        | none => simp only [nearestDomChild, hf, hd, hc] at h; cases h

theorem commitWork_traceOnly :
    ∀ (fuel : Nat) (fid? : Option Nat) (s : EngState), TraceOnly s (commitWork fuel fid? s) := by
  intro fuel
  induction fuel with
  | zero => intro fid? s; exact traceOnly_refl s
  | succ n ih =>
    intro fid? s
    cases fid? with
    | none => exact traceOnly_refl s
    | some fid =>
      cases hf : s.getF fid with
      | none => simp only [commitWork, hf]; exact traceOnly_refl s
      | some f =>
        cases hp : findDomParent s (s.fibers.length + 1) f.parent with
        | none => simp only [commitWork, hf, hp]; exact traceOnly_refl s
        | some dpid =>
          cases hd : (s.getF dpid).bind (fun p => p.dom) with
          | none => simp only [commitWork, hf, hp, hd]; exact traceOnly_refl s
          | some domParent =>
            simp only [commitWork, hf, hp, hd]
            refine traceOnly_trans (traceOnly_trans ?_ (ih f.child _)) (ih f.sibling _)
            split
            · split
              · exact traceOnly_emit s _
              · exact traceOnly_refl s
            · split
              · exact updateDOMOfF_traceOnly fid s
              · split
                · exact commitDeletion_traceOnly _ _ _ s
                · exact traceOnly_refl s

theorem foldCommit_traceOnly :
    ∀ (l : List Nat) (s : EngState),
      TraceOnly s
        (l.foldl (fun acc fid => commitWork (acc.fibers.length + 1) (some fid) acc) s) := by
  intro l
  induction l with
  | nil => intro s; exact traceOnly_refl s
  | cons d l ih =>
    intro s
    exact traceOnly_trans (commitWork_traceOnly _ _ _) (ih _)

theorem delPhase_traceOnly (s : EngState) : TraceOnly s (delPhase s) :=
  foldCommit_traceOnly _ s

theorem getF_congr {s0 s : EngState} (h : s0.fibers = s.fibers) (i : Nat) :
    s0.getF i = s.getF i := by
  unfold EngState.getF
  rw [h]

theorem findDomParent_congr {s0 s : EngState} (h : s0.fibers = s.fibers) :
    ∀ (fuel : Nat) (x : Option Nat), findDomParent s0 fuel x = findDomParent s fuel x := by
  intro fuel
  induction fuel with
  | zero => intro x; cases x <;> rfl
  | succ n ih =>
    intro x
    cases x with
    | none => rfl
    | some pid =>
      cases hg : s.getF pid with
      | none => simp only [findDomParent, getF_congr h, hg]
      | some p =>
        cases hdm : p.dom with
        | none => simp only [findDomParent, getF_congr h, hg, hdm]; simp [ih]
        | some d => simp only [findDomParent, getF_congr h, hg, hdm]; simp

theorem nearestDomChild_congr {s0 s : EngState} (h : s0.fibers = s.fibers) :
    ∀ (fuel fid : Nat), nearestDomChild s0 fuel fid = nearestDomChild s fuel fid := by
  intro fuel
  induction fuel with
  | zero => intro fid; rfl
  | succ n ih =>
    intro fid
    cases hg : s.getF fid with
    | none => simp only [nearestDomChild, getF_congr h, hg]
    | some f =>
      cases hdm : f.dom with
      | some d => simp only [nearestDomChild, getF_congr h, hg, hdm]
      | none =>
        cases hc : f.child with
        | some c => simp only [nearestDomChild, getF_congr h, hg, hdm, hc, ih]
        | none => simp only [nearestDomChild, getF_congr h, hg, hdm, hc]

theorem commitWork_deletion_emits (fuel fid : Nat) (s : EngState) (f : FiberRec)
    (a ad nd : Nat)
    (hf : s.getF fid = some f)
    (ht : f.effectTag = some EffTag.deletion)
    (hp : findDomParent s (s.fibers.length + 1) f.parent = some a)
    (hd : (s.getF a).bind (fun p => p.dom) = some ad)
    (hn : nearestDomChild s (s.fibers.length + 1) fid = some nd) :
    ∃ d, commitWork (fuel + 1) (some fid) s =
      { s with trace := s.trace ++ (HostOp.removeChild ad nd :: d) } := by
  have hb1 : (f.effectTag == some EffTag.placement && f.dom.isSome) = false := by rw [ht]; rfl
  have hb2 : (f.effectTag == some EffTag.update && f.dom.isSome) = false := by rw [ht]; rfl
  have hb3 : (f.effectTag == some EffTag.deletion) = true := by rw [ht]; rfl
  simp only [commitWork, hf, hp, hd, hb1, hb2, hb3, Bool.false_eq_true, if_false, if_true]
  rw [commitDeletion_emits _ _ _ _ _ hn]
  obtain ⟨d1, h1⟩ := commitWork_traceOnly fuel f.child (s.emit (HostOp.removeChild ad nd))
  obtain ⟨d2, h2⟩ := commitWork_traceOnly fuel f.sibling
    (commitWork fuel f.child (s.emit (HostOp.removeChild ad nd)))
  refine ⟨d1 ++ d2, ?_⟩
  rw [h2, h1]
  simp [EngState.emit]

theorem commitWork_placement_emits (fuel fid : Nat) (s : EngState) (f : FiberRec)
    (a ad dnode : Nat)
    (hf : s.getF fid = some f)
    (ht : f.effectTag = some EffTag.placement)
    (hdom : f.dom = some dnode)
    (hp : findDomParent s (s.fibers.length + 1) f.parent = some a)
    (hd : (s.getF a).bind (fun p => p.dom) = some ad) :
    ∃ d, commitWork (fuel + 1) (some fid) s =
      { s with trace := s.trace ++ (HostOp.appendChild ad dnode :: d) } := by
  have hb1 : (f.effectTag == some EffTag.placement && (some dnode : Option Nat).isSome) = true := by
    rw [ht]; rfl
  simp only [commitWork, hf, hp, hd, hdom, hb1, if_true]
  obtain ⟨d1, h1⟩ := commitWork_traceOnly fuel f.child (s.emit (HostOp.appendChild ad dnode))
  obtain ⟨d2, h2⟩ := commitWork_traceOnly fuel f.sibling
    (commitWork fuel f.child (s.emit (HostOp.appendChild ad dnode)))
  refine ⟨d1 ++ d2, ?_⟩
  rw [h2, h1]
  simp [EngState.emit]

theorem commitWork_update_emits (fuel fid : Nat) (s : EngState) (f : FiberRec)
    (a ad dnode : Nat)
    (hf : s.getF fid = some f)
    (ht : f.effectTag = some EffTag.update)
    (hdom : f.dom = some dnode)
    (hp : findDomParent s (s.fibers.length + 1) f.parent = some a)
    (hd : (s.getF a).bind (fun p => p.dom) = some ad) :
    ∃ d, commitWork (fuel + 1) (some fid) s =
      { s with trace := s.trace ++
          (updateDOMOfOps dnode
            (((f.alternate.bind s.getF).map (fun x => x.props.attrs)).getD [])
            f.props.attrs ++ d) } := by
  have hb1 : (f.effectTag == some EffTag.placement && (some dnode : Option Nat).isSome) = false := by
    rw [ht]; rfl
  have hb2 : (f.effectTag == some EffTag.update && (some dnode : Option Nat).isSome) = true := by
    rw [ht]; rfl
  simp only [commitWork, hf, hp, hd, hdom, hb1, hb2, Bool.false_eq_true, if_false, if_true]
  simp only [updateDOMOfF, hf, hdom]
  obtain ⟨d1, h1⟩ := commitWork_traceOnly fuel f.child
    (s.emitAll (updateDOMOfOps dnode
      (((f.alternate.bind s.getF).map (fun x => x.props.attrs)).getD []) f.props.attrs))
  obtain ⟨d2, h2⟩ := commitWork_traceOnly fuel f.sibling
    (commitWork fuel f.child
      (s.emitAll (updateDOMOfOps dnode
        (((f.alternate.bind s.getF).map (fun x => x.props.attrs)).getD []) f.props.attrs)))
  refine ⟨d1 ++ d2, ?_⟩
  rw [h2, h1]
  simp [EngState.emitAll]

theorem delPhase_removes_aux (s : EngState) :
    ∀ (l : List Nat) (s0 : EngState), s0.fibers = s.fibers →
      ∀ (dl : Nat) (f : FiberRec) (a ad nd : Nat), dl ∈ l →
        s.getF dl = some f → f.effectTag = some EffTag.deletion →
        findDomParent s (s.fibers.length + 1) f.parent = some a →
        (s.getF a).bind (fun p => p.dom) = some ad →
        nearestDomChild s (s.fibers.length + 1) dl = some nd →
        HostOp.removeChild ad nd ∈
          (l.foldl (fun acc fid => commitWork (acc.fibers.length + 1) (some fid) acc) s0).trace := by
  intro l
  induction l with
  | nil =>
    intro s0 hfib dl f a ad nd hmem
    cases hmem
  | cons x l ih =>
    intro s0 hfib dl f a ad nd hmem hgf ht hp hdom hn
    simp only [List.foldl_cons]
    have hlen : s0.fibers.length = s.fibers.length := by rw [hfib]
    rcases List.mem_cons.mp hmem with rfl | hmem'
    · have hgf0 : s0.getF dl = some f := by rw [getF_congr hfib]; exact hgf
      have hp0 : findDomParent s0 (s0.fibers.length + 1) f.parent = some a := by
        rw [findDomParent_congr hfib, hlen]; exact hp
      have hdom0 : (s0.getF a).bind (fun p => p.dom) = some ad := by
        rw [getF_congr hfib]; exact hdom
      have hn0 : nearestDomChild s0 (s0.fibers.length + 1) dl = some nd := by
        rw [nearestDomChild_congr hfib, hlen]; exact hn
      obtain ⟨d, hcw⟩ :=
        commitWork_deletion_emits s0.fibers.length dl s0 f a ad nd hgf0 ht hp0 hdom0 hn0
      obtain ⟨d2, hrest⟩ := foldCommit_traceOnly l
        (commitWork (s0.fibers.length + 1) (some dl) s0)
      rw [hrest, hcw]
      simp
    · have hfib' : (commitWork (s0.fibers.length + 1) (some x) s0).fibers = s.fibers := by
        rw [(commitWork_traceOnly _ _ _).fibers_eq, hfib]
      exact ih _ hfib' dl f a ad nd hmem' hgf ht hp hdom hn

/-- C2: for every completed pass, `commitRoot` (1) leaves the fiber
arena and `nextUnitOfWork` untouched, sets `currentRoot` to the
just-committed work-in-progress root and clears `workInProgressRoot`;
(2) its trace is the input trace followed first by the operations of
the pending-deletions phase and then by those of the depth-first walk
of the new tree starting at the root's child; (3) every fiber in the
pending-deletions list whose effect is `DELETION` has the host node of
its nearest dom-bearing descendant (found by recursing through `child`
links when the fiber itself owns no node) removed from its nearest
dom-bearing ancestor's node during the deletions phase; and (4) in the
tree walk, a `PLACEMENT` fiber owning a host node has that node
attached to its nearest dom-bearing ancestor's node, and an `UPDATE`
fiber owning a host node has the property diff against its alternate's
props re-applied to it. -/
theorem commitRoot_contract (s : EngState) (w : Nat) (hw : s.wipRoot = some w) :
    ((commitRoot s).currentRoot = some w
      ∧ (commitRoot s).wipRoot = none
      ∧ (commitRoot s).nextUnitOfWork = s.nextUnitOfWork
      ∧ (commitRoot s).fibers = s.fibers)
  ∧ (∃ t1 t2,
      (delPhase s).trace = s.trace ++ t1
      ∧ (commitRoot s).trace = s.trace ++ t1 ++ t2
      ∧ (commitWork ((delPhase s).fibers.length + 1)
            (((delPhase s).getF w).bind (fun f => f.child)) (delPhase s)).trace
          = (delPhase s).trace ++ t2)
  ∧ (∀ (dl : Nat) (f : FiberRec) (a ad nd : Nat),
      dl ∈ s.deletions.getD [] →
      s.getF dl = some f → f.effectTag = some EffTag.deletion →
      findDomParent s (s.fibers.length + 1) f.parent = some a →
      (s.getF a).bind (fun p => p.dom) = some ad →
      nearestDomChild s (s.fibers.length + 1) dl = some nd →
      HostOp.removeChild ad nd ∈ (delPhase s).trace)
  ∧ (∀ (fuel fid : Nat) (f : FiberRec) (a ad : Nat) (σ : EngState),
      σ.getF fid = some f →
      findDomParent σ (σ.fibers.length + 1) f.parent = some a →
      (σ.getF a).bind (fun p => p.dom) = some ad →
      ((∀ dnode : Nat, f.effectTag = some EffTag.placement → f.dom = some dnode →
          ∃ d, commitWork (fuel + 1) (some fid) σ =
            { σ with trace := σ.trace ++ (HostOp.appendChild ad dnode :: d) })
       ∧ (∀ dnode : Nat, f.effectTag = some EffTag.update → f.dom = some dnode →
          ∃ d, commitWork (fuel + 1) (some fid) σ =
            { σ with trace := σ.trace ++
                (updateDOMOfOps dnode
                  (((f.alternate.bind σ.getF).map (fun x => x.props.attrs)).getD [])
                  f.props.attrs ++ d) }))) := by
  have hdel := delPhase_traceOnly s
  have hcw := commitWork_traceOnly ((delPhase s).fibers.length + 1)
    (((delPhase s).getF w).bind (fun f => f.child)) (delPhase s)
  have hcr : commitRoot s =
      { commitWork ((delPhase s).fibers.length + 1)
          (((delPhase s).getF w).bind (fun f => f.child)) (delPhase s) with
        currentRoot := some w, wipRoot := none } := by
    simp only [commitRoot, hw]
  refine ⟨⟨?_, ?_, ?_, ?_⟩, ?_, ?_, ?_⟩
  · rw [hcr]
  · rw [hcr]
  · rw [hcr]
    show (commitWork _ _ (delPhase s)).nextUnitOfWork = s.nextUnitOfWork
    rw [hcw.nextUnitOfWork_eq, hdel.nextUnitOfWork_eq]
  · rw [hcr]
    show (commitWork _ _ (delPhase s)).fibers = s.fibers
    rw [hcw.fibers_eq, hdel.fibers_eq]
  · obtain ⟨t1, h1⟩ := hdel.trace_delta
    obtain ⟨t2, h2⟩ := hcw.trace_delta
    refine ⟨t1, t2, h1, ?_, by rw [h2]⟩
    rw [hcr]
    show (commitWork _ _ (delPhase s)).trace = s.trace ++ t1 ++ t2
    rw [h2, h1, List.append_assoc]
  · intro dl f a ad nd hmem hgf ht hp hdom hn
    exact delPhase_removes_aux s (s.deletions.getD []) s rfl dl f a ad nd hmem hgf ht hp hdom hn
  · intro fuel fid f a ad σ hgf hp hdom
    constructor
    · intro dnode ht hdm
      exact commitWork_placement_emits fuel fid σ f a ad dnode hgf ht hdm hp hdom
    · intro dnode ht hdm
      exact commitWork_update_emits fuel fid σ f a ad dnode hgf ht hdm hp hdom

/-- C2 witness: the deletion fiber of the second pass of the concrete
scenario (fiber 3, host node 3, nearest dom ancestor node 1) has its
removal emitted during the deletions phase, and the commit swaps the
roots. -/
theorem commitRoot_contract_witness :
    HostOp.removeChild 1 3 ∈ (delPhase (unitIter env0 3 stateB)).trace
    ∧ (commitRoot (unitIter env0 3 stateB)).currentRoot = some 4
    ∧ (commitRoot (unitIter env0 3 stateB)).wipRoot = none := by
  have h := commitRoot_contract (unitIter env0 3 stateB) 4 rfl
  refine ⟨?_, h.1.1, h.1.2.1⟩
  exact h.2.2.1 3
    { ftype := .tag "b", props := { children := [], attrs := [] }, dom := some 3,
      parent := some 1, effectTag := some .deletion }
    1 1 3 (by decide) rfl rfl rfl rfl rfl

/-! ### The render phase never touches the root singletons -/

theorem setF_wipRoot (s : EngState) (i : Nat) (f : FiberRec) :
    (s.setF i f).wipRoot = s.wipRoot := rfl

theorem modifyF_wipRoot (s : EngState) (i : Nat) (g : FiberRec → FiberRec) :
    (s.modifyF i g).wipRoot = s.wipRoot := by
  unfold EngState.modifyF
  cases s.getF i
  · rfl
  · rfl

theorem pushDeletion_wipRoot (s : EngState) (i : Nat) :
    (s.pushDeletion i).wipRoot = s.wipRoot := rfl

theorem alloc_snd_wipRoot (s : EngState) (f : FiberRec) :
    (s.alloc f).2.wipRoot = s.wipRoot := rfl

theorem reconcileGo_wipRoot (w : Nat) (els : List Element) :
    ∀ (fuel idx : Nat) (old prev : Option Nat) (s : EngState),
      (reconcileGo w els fuel idx old prev s).wipRoot = s.wipRoot := by
  intro fuel
  induction fuel with
  | zero => intro idx old prev s; rfl
  | succ n ih =>
    intro idx old prev s
    simp only [reconcileGo]
    split
    · rw [ih]
      repeat' split
      all_goals
        simp [EngState.modifyF, EngState.setF, EngState.alloc, EngState.pushDeletion]
      all_goals repeat' split
      all_goals rfl
    · rfl

theorem reconcileChildren_wipRoot (w : Nat) (els : List Element) (s : EngState) :
    (reconcileChildren w els s).wipRoot = s.wipRoot :=
  reconcileGo_wipRoot w els _ 0 _ none s

theorem createDOMOf_snd_wipRoot (fid : Nat) (s : EngState) :
    (createDOMOf fid s).2.wipRoot = s.wipRoot := by
  cases hf : s.getF fid with
  | none => simp [createDOMOf, hf]
  | some f =>
    simp only [createDOMOf, hf, EngState.newDom]
    cases f.ftype <;> rfl

theorem attachDOM2_wipRoot (fid : Nat) (s : EngState) :
    (attachDOM2 fid s).wipRoot = s.wipRoot := by
  unfold attachDOM2
  rw [(updateDOMOfF_traceOnly _ _).wipRoot_eq, modifyF_wipRoot, createDOMOf_snd_wipRoot]

theorem updateHostComponent_wipRoot (fid : Nat) (s : EngState) :
    (updateHostComponent fid s).wipRoot = s.wipRoot := by
  unfold updateHostComponent
  rw [reconcileChildren_wipRoot]
  cases hf : s.getF fid with
  | none => rfl
  | some f =>
    by_cases h : f.dom.isNone
    · simp [hf, h, attachDOM2_wipRoot]
    · simp [hf, h]

theorem updateFunctionComponent_wipRoot (env : CompEnv) (fid : Nat) (s : EngState) :
    (updateFunctionComponent env fid s).wipRoot = s.wipRoot := by
  cases hf : s.getF fid with
  | none => simp [updateFunctionComponent, hf]
  | some f =>
    cases hft : f.ftype with
    | fc cid => simp [updateFunctionComponent, hf, hft, reconcileChildren_wipRoot]
    | tag t => simp [updateFunctionComponent, hf, hft]
    | text => simp [updateFunctionComponent, hf, hft]
    | root => simp [updateFunctionComponent, hf, hft]

theorem performUnitOfWork_fst_wipRoot (env : CompEnv) (fid : Nat) (s : EngState) :
    (performUnitOfWork env fid s).1.wipRoot = s.wipRoot := by
  cases hf : s.getF fid with
  | none => simp [performUnitOfWork, hf]
  | some f =>
    by_cases h : isFC f.ftype
    · simp [performUnitOfWork, hf, h, updateFunctionComponent_wipRoot]
    · simp [performUnitOfWork, hf, h, updateHostComponent_wipRoot]

theorem unitStep_wipRoot (env : CompEnv) (s : EngState) :
    (unitStep env s).wipRoot = s.wipRoot := by
  cases hn : s.nextUnitOfWork with
  | none => simp [unitStep, hn]
  | some u => simp [unitStep, hn, performUnitOfWork_fst_wipRoot]

theorem unitIter_wipRoot (env : CompEnv) :
    ∀ (k : Nat) (s : EngState), (unitIter env k s).wipRoot = s.wipRoot := by
  intro k
  induction k with
  | zero => intro s; rfl
  | succ n ih => intro s; rw [unitIter, ih, unitStep_wipRoot]

/-! ### Unit-iteration lemmas for the scheduler -/

theorem unitStep_of_next_none {env : CompEnv} {s : EngState}
    (h : s.nextUnitOfWork = none) : unitStep env s = s := by
  unfold unitStep
  rw [h]

theorem unitIter_stall (env : CompEnv) :
    ∀ (k : Nat) (s : EngState), s.nextUnitOfWork = none → unitIter env k s = s := by
  intro k
  induction k with
  | zero => intro s _; rfl
  | succ n ih =>
    intro s h
    rw [unitIter, unitStep_of_next_none h, ih s h]

theorem unitIter_succ_out (env : CompEnv) :
    ∀ (k : Nat) (s : EngState), unitIter env (k + 1) s = unitStep env (unitIter env k s) := by
  intro k
  induction k with
  | zero => intro s; rfl
  | succ n ih =>
    intro s
    exact ih (unitStep env s)

theorem unitIter_add (env : CompEnv) :
    ∀ (a b : Nat) (s : EngState), unitIter env (a + b) s = unitIter env b (unitIter env a s) := by
  intro a b
  induction b with
  | zero => intro s; rfl
  | succ n ih =>
    intro s
    rw [← Nat.add_assoc, unitIter_succ_out, unitIter_succ_out, ih s]

theorem unitIter_confluence (env : CompEnv) (a b : Nat) (s : EngState)
    (ha : (unitIter env a s).nextUnitOfWork = none)
    (hb : (unitIter env b s).nextUnitOfWork = none) :
    unitIter env a s = unitIter env b s := by
  rcases Nat.le_total a b with h | h
  · obtain ⟨c, rfl⟩ := Nat.le.dest h
    rw [unitIter_add, unitIter_stall env c _ ha]
  · obtain ⟨c, rfl⟩ := Nat.le.dest h
    rw [unitIter_add, unitIter_stall env c _ hb]

theorem workLoopGo_shape (env : CompEnv) :
    ∀ (fuel : Nat) (tr : Nat → Int) (n : Nat) (s : EngState),
      ∃ k, (workLoopGo env fuel tr n s).1 = unitIter env k s := by
  intro fuel
  induction fuel with
  | zero => intro tr n s; exact ⟨0, rfl⟩
  | succ m ih =>
    intro tr n s
    cases hn : s.nextUnitOfWork with
    | none => exact ⟨0, by simp [workLoopGo, hn, unitIter]⟩
    | some u =>
      by_cases hc : tr n < 1
      · exact ⟨1, by simp [workLoopGo, hn, hc]; rfl⟩
      · obtain ⟨k, hk⟩ := ih tr (n + 1) (unitStep env s)
        exact ⟨k + 1, by simp [workLoopGo, hn, hc]; rw [hk]; rw [← unitIter]⟩

theorem commitRoot_next_eq (s : EngState) :
    (commitRoot s).nextUnitOfWork = s.nextUnitOfWork := by
  unfold commitRoot
  cases hw : s.wipRoot with
  | none => rfl
  | some w =>
    show (commitWork _ _ (delPhase s)).nextUnitOfWork = s.nextUnitOfWork
    rw [(commitWork_traceOnly _ _ _).nextUnitOfWork_eq, (delPhase_traceOnly s).nextUnitOfWork_eq]

theorem commitRoot_of_wip_none {s : EngState} (h : s.wipRoot = none) : commitRoot s = s := by
  unfold commitRoot
  rw [h]

theorem commitRoot_wip_none {s : EngState} {w : Nat} (h : s.wipRoot = some w) :
    (commitRoot s).wipRoot = none := by
  unfold commitRoot
  rw [h]

theorem workLoopSlice_of_finished {env : CompEnv} {fuel : Nat} {tr : Nat → Int} {s : EngState}
    (h1 : s.nextUnitOfWork = none) (h2 : s.wipRoot = none) :
    workLoopSlice env fuel tr s = s := by
  unfold workLoopSlice
  have hgo : (workLoopGo env fuel tr 0 s).1 = s := by
    cases fuel with
    | zero => rfl
    | succ m => simp [workLoopGo, h1]
  rw [hgo, if_neg]
  simp [h1, h2]

theorem runSlices_finished (env : CompEnv) :
    ∀ (ds : List (Nat × (Nat → Int))) (s : EngState),
      s.nextUnitOfWork = none → s.wipRoot = none → runSlices env ds s = s := by
  intro ds
  induction ds with
  | nil => intro s _ _; rfl
  | cons d ds ih =>
    intro s h1 h2
    show runSlices env ds (workLoopSlice env d.1 d.2 s) = s
    rw [workLoopSlice_of_finished h1 h2, ih s h1 h2]

theorem runSlices_shape (env : CompEnv) :
    ∀ (ds : List (Nat × (Nat → Int))) (s : EngState),
      (∃ k, runSlices env ds s = unitIter env k s)
      ∨ (∃ k, (unitIter env k s).nextUnitOfWork = none
            ∧ runSlices env ds s = commitRoot (unitIter env k s)) := by
  intro ds
  induction ds with
  | nil => intro s; exact Or.inl ⟨0, rfl⟩
  | cons d ds ih =>
    intro s
    have hstep : runSlices env (d :: ds) s = runSlices env ds (workLoopSlice env d.1 d.2 s) := rfl
    obtain ⟨j, hj⟩ := workLoopGo_shape env d.1 d.2 0 s
    by_cases hcond : ((workLoopGo env d.1 d.2 0 s).1.nextUnitOfWork = none
        ∧ (workLoopGo env d.1 d.2 0 s).1.wipRoot ≠ none)
    · have hslice : workLoopSlice env d.1 d.2 s = commitRoot (workLoopGo env d.1 d.2 0 s).1 := by
        unfold workLoopSlice
        rw [if_pos hcond]
      have hnone : (commitRoot (workLoopGo env d.1 d.2 0 s).1).nextUnitOfWork = none := by
        rw [commitRoot_next_eq]; exact hcond.1
      have hwip : (commitRoot (workLoopGo env d.1 d.2 0 s).1).wipRoot = none := by
        obtain ⟨w, hw⟩ := Option.ne_none_iff_exists'.mp hcond.2
        exact commitRoot_wip_none hw
      right
      refine ⟨j, by rw [← hj]; exact hcond.1, ?_⟩
      rw [hstep, hslice, runSlices_finished env ds _ hnone hwip, hj]
    · have hslice : workLoopSlice env d.1 d.2 s = (workLoopGo env d.1 d.2 0 s).1 := by
        unfold workLoopSlice
        rw [if_neg hcond]
      rcases ih (unitIter env j s) with ⟨k, hk⟩ | ⟨k, hk1, hk2⟩
      · left
        exact ⟨j + k, by rw [hstep, hslice, hj, hk, unitIter_add]⟩
      · right
        refine ⟨j + k, ?_, ?_⟩
        · rw [unitIter_add]; exact hk1
        · rw [hstep, hslice, hj, hk2, unitIter_add]

theorem workLoopGo_exact_aux (env : CompEnv) (tr : Nat → Int) :
    ∀ (N fuel n : Nat) (s : EngState), 1 ≤ N → N ≤ fuel →
      (∀ k, k + 1 < N → 1 ≤ tr (n + k)) →
      tr (n + (N - 1)) < 1 →
      (∀ k, k < N → (unitIter env k s).nextUnitOfWork ≠ none) →
      workLoopGo env fuel tr n s = (unitIter env N s, n + N) := by
  intro N
  induction N with
  | zero => intro fuel n s h1; omega
  | succ m ih =>
    intro fuel n s h1 h2 h3 h4 h5
    cases fuel with
    | zero => omega
    | succ fl =>
      have hnx : s.nextUnitOfWork ≠ none := h5 0 (by omega)
      cases hne : s.nextUnitOfWork with
      | none => exact absurd hne hnx
      | some u =>
        simp only [workLoopGo, hne]
        cases m with
        | zero =>
          have ht : tr n < 1 := by simpa using h4
          rw [if_pos ht]
          rfl
        | succ m' =>
          have ht1 : 1 ≤ tr n := by simpa using h3 0 (by omega)
          rw [if_neg (by omega)]
          have h3' : ∀ k, k + 1 < m' + 1 → 1 ≤ tr (n + 1 + k) := by
            intro k hk
            have h := h3 (k + 1) (by omega)
            have he : n + (k + 1) = n + 1 + k := by omega
            rwa [he] at h
          have h4' : tr (n + 1 + (m' + 1 - 1)) < 1 := by
            have he : n + (m' + 1 + 1 - 1) = n + 1 + (m' + 1 - 1) := by omega
            rwa [he] at h4
          have h5' : ∀ k, k < m' + 1 → (unitIter env k (unitStep env s)).nextUnitOfWork ≠ none := by
            intro k hk
            exact h5 (k + 1) (by omega)
          have := ih fl (n + 1) (unitStep env s) (by omega) (by omega) h3' h4' h5'
          rw [this]
          refine Prod.ext rfl ?_
          show n + 1 + (m' + 1) = n + (m' + 1 + 1)
          omega

/-- C3: scheduler contract.  (a) A deadline whose `timeRemaining()`
reports below-threshold on its `N`-th call (and at-or-above threshold
earlier) makes the slice process exactly `N` fibers, advancing the
state by exactly `N` unit-of-work steps, provided enough fuel and
enough pending work.  (b) A slice commits exactly when the unit loop
ends with no next fiber while a work-in-progress root exists; without
that, the slice is just the unit loop's final state, and on commit the
work-in-progress root becomes the committed root.  (c) Any sliced run
that completes and commits produces the same final state as an
uninterrupted single-slice run that completes and commits — in
particular the same committed tree. -/
theorem workLoop_scheduler_contract (env : CompEnv) :
    (∀ (tr : Nat → Int) (N fuel : Nat) (s : EngState), 1 ≤ N → N ≤ fuel →
      (∀ k, k + 1 < N → 1 ≤ tr k) →
      tr (N - 1) < 1 →
      (∀ k, k < N → (unitIter env k s).nextUnitOfWork ≠ none) →
      workLoopGo env fuel tr 0 s = (unitIter env N s, N))
  ∧ (∀ (fuel : Nat) (tr : Nat → Int) (s : EngState),
      (¬ ((workLoopGo env fuel tr 0 s).1.nextUnitOfWork = none
          ∧ (workLoopGo env fuel tr 0 s).1.wipRoot ≠ none) →
        workLoopSlice env fuel tr s = (workLoopGo env fuel tr 0 s).1)
      ∧ (∀ w, (workLoopGo env fuel tr 0 s).1.nextUnitOfWork = none →
          (workLoopGo env fuel tr 0 s).1.wipRoot = some w →
          workLoopSlice env fuel tr s = commitRoot (workLoopGo env fuel tr 0 s).1
          ∧ (workLoopSlice env fuel tr s).currentRoot = some w
          ∧ (workLoopSlice env fuel tr s).wipRoot = none))
  ∧ (∀ (ds : List (Nat × (Nat → Int))) (fuel1 : Nat) (tr1 : Nat → Int) (s : EngState),
      (runSlices env ds s).nextUnitOfWork = none →
      (runSlices env ds s).wipRoot = none →
      (workLoopSlice env fuel1 tr1 s).nextUnitOfWork = none →
      (workLoopSlice env fuel1 tr1 s).wipRoot = none →
      runSlices env ds s = workLoopSlice env fuel1 tr1 s) := by
  refine ⟨?_, ?_, ?_⟩
  · intro tr N fuel s h1 h2 h3 h4 h5
    have := workLoopGo_exact_aux env tr N fuel 0 s h1 h2
      (by intro k hk; simpa using h3 k hk) (by simpa using h4) h5
    simpa using this
  · intro fuel tr s
    constructor
    · intro hcond
      unfold workLoopSlice
      rw [if_neg hcond]
    · intro w hn hw
      have hcond : ((workLoopGo env fuel tr 0 s).1.nextUnitOfWork = none
          ∧ (workLoopGo env fuel tr 0 s).1.wipRoot ≠ none) := ⟨hn, by rw [hw]; simp⟩
      have hslice : workLoopSlice env fuel tr s = commitRoot (workLoopGo env fuel tr 0 s).1 := by
        unfold workLoopSlice
        rw [if_pos hcond]
      refine ⟨hslice, ?_, ?_⟩
      · rw [hslice]
        unfold commitRoot
        rw [hw]
      · rw [hslice]
        exact commitRoot_wip_none hw
  · intro ds fuel1 tr1 s hc1 hc2 hc3 hc4
    have hsingle : workLoopSlice env fuel1 tr1 s = runSlices env [(fuel1, tr1)] s := rfl
    rcases runSlices_shape env ds s with ⟨k, hk⟩ | ⟨k, hkn, hk⟩ <;>
      rcases runSlices_shape env [(fuel1, tr1)] s with ⟨k1, hk1⟩ | ⟨k1, hk1n, hk1⟩
    · rw [hk, hsingle, hk1]
      refine unitIter_confluence env k k1 s ?_ ?_
      · rw [← hk]; exact hc1
      · rw [← hk1, ← hsingle]; exact hc3
    · -- sliced run never committed: its wipRoot is the initial one
      have hwipnone : s.wipRoot = none := by
        rw [← unitIter_wipRoot env k s, ← hk]; exact hc2
      have hcr : commitRoot (unitIter env k1 s) = unitIter env k1 s :=
        commitRoot_of_wip_none (by rw [unitIter_wipRoot]; exact hwipnone)
      rw [hk, hsingle, hk1, hcr]
      refine unitIter_confluence env k k1 s ?_ hk1n
      rw [← hk]; exact hc1
    · have hwipnone : s.wipRoot = none := by
        rw [← unitIter_wipRoot env k1 s, ← hk1, ← hsingle]; exact hc4
      have hcr : commitRoot (unitIter env k s) = unitIter env k s :=
        commitRoot_of_wip_none (by rw [unitIter_wipRoot]; exact hwipnone)
      rw [hk, hsingle, hk1, hcr]
      refine unitIter_confluence env k k1 s hkn ?_
      rw [← hk1, ← hsingle]; exact hc3
    · rw [hk, hsingle, hk1, unitIter_confluence env k k1 s hkn hk1n]

/-- C3 witness: in the concrete first-pass scenario, a deadline
reporting below-threshold on its second call makes the slice process
exactly two fibers, and a two-slice interrupted run commits the same
final state as an uninterrupted single slice. -/
theorem workLoop_scheduler_witness :
    workLoopGo env0 10 trCut 0 stateA = (unitIter env0 2 stateA, 2)
    ∧ runSlices env0 [(10, trCut), (10, trGen)] stateA = workLoopSlice env0 10 trGen stateA
    ∧ (workLoopSlice env0 10 trGen stateA).currentRoot = some 0 := by
  have h := workLoop_scheduler_contract env0
  refine ⟨?_, ?_, rfl⟩
  · exact h.1 trCut 2 10 stateA (by omega) (by omega)
      (by intro k hk
          have hk0 : k = 0 := by omega
          subst hk0
          norm_num [trCut])
      (by norm_num [trCut]) (by decide)
  · exact h.2.2 [(10, trCut), (10, trGen)] 10 trGen stateA rfl rfl rfl rfl

/-! ### Depth-first pre-order traversal lemmas -/

theorem upWalk_none (s : EngState) : ∀ fuel : Nat, upWalk s fuel none = none := by
  intro fuel
  cases fuel <;> rfl

theorem sizeT_pos (t : RTree) : 1 ≤ sizeT t := by
  cases t with
  | node i cs => simp [sizeT]

theorem preorderList_head (t : RTree) (ts : List RTree) :
    ∃ rest, preorderList (t :: ts) = t.fidOf :: rest := by
  cases t with
  | node i cs =>
    exact ⟨preorderList cs ++ preorderList ts,
      by simp [preorderList, preorder, RTree.fidOf]⟩

theorem repChain_last (s : EngState) (pid : Nat) :
    ∀ cs : List RTree, RepChain s pid cs → cs ≠ [] →
      ∃ tl, RepF s (some pid) none tl
        ∧ rightDepthC cs = rightDepth tl
        ∧ (∀ dflt : Nat, lastIdC dflt cs = lastId tl)
        ∧ sizeT tl ≤ sizeLC cs := by
  intro cs
  induction cs with
  | nil => intro _ hne; exact absurd rfl hne
  | cons t ts ih =>
    intro h _
    obtain ⟨hF, hC⟩ := h
    cases ts with
    | nil =>
      refine ⟨t, hF, rfl, fun dflt => rfl, ?_⟩
      show sizeT t ≤ sizeT t + sizeLC []
      omega
    | cons t2 ts2 =>
      obtain ⟨tl, h1, h2, h3, h4⟩ := ih hC (by simp)
      refine ⟨tl, h1, h2, fun dflt => h3 dflt, ?_⟩
      show sizeT tl ≤ sizeT t + sizeLC (t2 :: ts2)
      omega

theorem rd_le_size_aux : ∀ n : Nat,
    (∀ t : RTree, sizeT t ≤ n → rightDepth t ≤ sizeT t)
    ∧ (∀ cs : List RTree, sizeLC cs ≤ n → rightDepthC cs ≤ sizeLC cs) := by
  intro n
  induction n using Nat.strong_induction_on with
  | _ n ih =>
    have tree_n : ∀ t : RTree, sizeT t ≤ n → rightDepth t ≤ sizeT t := by
      intro t hsz
      cases t with
      | node i cs =>
        cases cs with
        | nil =>
          show 1 + rightDepthC [] ≤ 1 + sizeLC []
          simp [rightDepthC, sizeLC]
        | cons c cs' =>
          have hlt : sizeLC (c :: cs') < n := by
            have h1 := sizeT_pos c
            show sizeT c + sizeLC cs' < n
            have : 1 + (sizeT c + sizeLC cs') ≤ n := hsz
            omega
          have h := (ih (sizeLC (c :: cs')) hlt).2 (c :: cs') (le_refl _)
          show 1 + rightDepthC (c :: cs') ≤ 1 + sizeLC (c :: cs')
          omega
    refine ⟨tree_n, ?_⟩
    intro cs hsz
    cases cs with
    | nil => exact le_refl _
    | cons t ts =>
      cases ts with
      | nil =>
        have ht : sizeT t ≤ n := by
          have : sizeT t + sizeLC ([] : List RTree) ≤ n := hsz
          simpa [sizeLC] using this
        have h := tree_n t ht
        show rightDepth t ≤ sizeT t + sizeLC []
        simp [sizeLC]
        omega
      | cons t2 ts2 =>
        have h1 := sizeT_pos t
        have hle : sizeT t + sizeLC (t2 :: ts2) ≤ n := hsz
        have h := (ih (sizeLC (t2 :: ts2)) (by omega)).2 (t2 :: ts2) (le_refl _)
        show rightDepthC (t2 :: ts2) ≤ sizeT t + sizeLC (t2 :: ts2)
        omega

theorem rd_le_size (t : RTree) : rightDepth t ≤ sizeT t :=
  (rd_le_size_aux (sizeT t)).1 t (le_refl _)

theorem upWalk_spine_aux (s : EngState) : ∀ n : Nat, ∀ t : RTree, sizeT t ≤ n →
    ∀ (p sib : Option Nat), RepF s p sib t →
      ∀ k : Nat, upWalk s (k + rightDepth t) (some (lastId t)) = sibExit s k p sib := by
  intro n
  induction n using Nat.strong_induction_on with
  | _ n ih =>
    intro t hsz p sib hrep k
    cases t with
    | node fid cs =>
      obtain ⟨f, hgf, hpar, hsib, hchild, hchain⟩ := hrep
      cases cs with
      | nil =>
        show upWalk s (k + (1 + rightDepthC [])) (some (lastIdC fid [])) = _
        have hfuel : k + (1 + rightDepthC []) = k + 1 := by simp [rightDepthC]
        rw [hfuel]
        show upWalk s (k + 1) (some fid) = _
        simp only [upWalk, hgf, hsib, hpar]
        cases sib <;> rfl
      | cons c cs' =>
        obtain ⟨tl, htl, hrd, hlast, hszl⟩ := repChain_last s fid (c :: cs') hchain (by simp)
        have hszlt : sizeT tl < n := by
          have h1 := sizeT_pos c
          have : 1 + sizeLC (c :: cs') ≤ n := hsz
          omega
        have hstep := ih (sizeT tl) hszlt tl (le_refl _) (some fid) none htl (k + 1)
        have harith : k + rightDepth (RTree.node fid (c :: cs')) = k + 1 + rightDepth tl := by
          show k + (1 + rightDepthC (c :: cs')) = k + 1 + rightDepth tl
          rw [hrd]
          omega
        have hlast' : lastId (RTree.node fid (c :: cs')) = lastId tl := hlast fid
        rw [harith, hlast']
        have hstep' : upWalk s (k + 1 + rightDepth tl) (some (lastId tl)) =
            upWalk s (k + 1) (some fid) := hstep
        rw [hstep']
        show upWalk s (k + 1) (some fid) = _
        simp only [upWalk, hgf, hsib, hpar]
        cases sib <;> rfl

theorem upWalk_spine (s : EngState) (t : RTree) (p sib : Option Nat) (h : RepF s p sib t)
    (k : Nat) :
    upWalk s (k + rightDepth t) (some (lastId t)) = sibExit s k p sib :=
  upWalk_spine_aux s (sizeT t) t (le_refl _) p sib h k

theorem succOK_append (s : EngState) :
    ∀ (l1 l2 : List Nat) (e : Option Nat),
      SuccOK s l1 (match l2 with | [] => e | y :: _ => some y) →
      SuccOK s l2 e →
      SuccOK s (l1 ++ l2) e := by
  intro l1
  induction l1 with
  | nil => intro l2 e _ h2; simpa using h2
  | cons x l1' ih =>
    intro l2 e h1 h2
    cases l1' with
    | nil =>
      cases l2 with
      | nil => simpa using h1
      | cons y l2' => exact ⟨h1, h2⟩
    | cons x2 l1'' =>
      exact ⟨h1.1, ih l2 e h1.2 h2⟩

theorem succOK_aux (s : EngState) : ∀ n : Nat,
    (∀ (t : RTree) (p sib : Option Nat), RepF s p sib t → sizeT t ≤ n →
      sizeT t ≤ s.fibers.length →
      ∀ k : Nat, s.fibers.length + 1 = k + rightDepth t →
      SuccOK s (preorder t) (sibExit s k p sib))
    ∧ (∀ (cs : List RTree) (pid : Nat), RepChain s pid cs → sizeLC cs ≤ n →
      sizeLC cs ≤ s.fibers.length → cs ≠ [] →
      ∀ k : Nat, s.fibers.length + 1 = k + rightDepthC cs →
      SuccOK s (preorderList cs) (upWalk s k (some pid))) := by
  intro n
  induction n using Nat.strong_induction_on with
  | _ n ih =>
    have tree_n : ∀ (t : RTree) (p sib : Option Nat), RepF s p sib t → sizeT t ≤ n →
        sizeT t ≤ s.fibers.length →
        ∀ k : Nat, s.fibers.length + 1 = k + rightDepth t →
        SuccOK s (preorder t) (sibExit s k p sib) := by
      intro t p sib hrep hn hlen k hk
      cases t with
      | node fid cs =>
        obtain ⟨f, hgf, hpar, hsib, hchild, hchain⟩ := hrep
        cases cs with
        | nil =>
          show stepNext s fid = _
          simp only [stepNext, hgf, hchild, chainHead]
          rw [hk]
          exact upWalk_spine s (RTree.node fid []) p sib
            ⟨f, hgf, hpar, hsib, hchild, hchain⟩ k
        | cons c cs' =>
          obtain ⟨rest, hplist⟩ := preorderList_head c cs'
          have hlen' : sizeLC (c :: cs') ≤ s.fibers.length := by
            have : 1 + sizeLC (c :: cs') ≤ s.fibers.length := hlen
            omega
          have hsmaller : sizeLC (c :: cs') < n := by
            have : 1 + sizeLC (c :: cs') ≤ n := hn
            omega
          have hk' : s.fibers.length + 1 = (k + 1) + rightDepthC (c :: cs') := by
            have : s.fibers.length + 1 = k + (1 + rightDepthC (c :: cs')) := hk
            omega
          have htail := (ih _ hsmaller).2 (c :: cs') fid hchain (le_refl _) hlen'
            (by simp) (k + 1) hk'
          have hexit : upWalk s (k + 1) (some fid) = sibExit s k p sib := by
            simp only [upWalk, hgf, hsib, hpar]
            cases sib <;> rfl
          rw [hexit] at htail
          have hhead : stepNext s fid = some c.fidOf := by
            simp only [stepNext, hgf, hchild, chainHead]
          show SuccOK s (fid :: preorderList (c :: cs')) _
          rw [hplist]
          rw [hplist] at htail
          exact ⟨hhead, htail⟩
    refine ⟨tree_n, ?_⟩
    intro cs pid hchain hn hlen hne k hk
    cases cs with
    | nil => exact absurd rfl hne
    | cons t ts =>
      obtain ⟨hF, hC⟩ := hchain
      cases ts with
        | nil =>
          have hszt : sizeT t ≤ n := by
            have : sizeT t + sizeLC ([] : List RTree) ≤ n := hn
            simpa [sizeLC] using this
          have hlent : sizeT t ≤ s.fibers.length := by
            have : sizeT t + sizeLC ([] : List RTree) ≤ s.fibers.length := hlen
            simpa [sizeLC] using this
          have hkt : s.fibers.length + 1 = k + rightDepth t := hk
          have h := tree_n t (some pid) (chainHead []) hF hszt hlent k hkt
          have hpl : preorderList [t] = preorder t := by
            simp [preorderList]
          rw [hpl]
          simpa [chainHead] using h
        | cons t2 ts2 =>
          show SuccOK s (preorder t ++ preorderList (t2 :: ts2)) _
          apply succOK_append
          · obtain ⟨rest2, hpl2⟩ := preorderList_head t2 ts2
            rw [hpl2]
            have hszt : sizeT t ≤ s.fibers.length := by
              have h1 := sizeT_pos t2
              have : sizeT t + (sizeT t2 + sizeLC ts2) ≤ s.fibers.length := hlen
              omega
            have hsztn : sizeT t ≤ n := by
              have h1 := sizeT_pos t2
              have : sizeT t + (sizeT t2 + sizeLC ts2) ≤ n := hn
              omega
            have hrd : rightDepth t ≤ s.fibers.length + 1 :=
              le_trans (rd_le_size t) (by omega)
            have hkt : s.fibers.length + 1 =
                (s.fibers.length + 1 - rightDepth t) + rightDepth t := by
              omega
            have h := tree_n t (some pid) (chainHead (t2 :: ts2)) hF hsztn hszt
              (s.fibers.length + 1 - rightDepth t) hkt
            simpa [chainHead] using h
          · have hsmaller : sizeLC (t2 :: ts2) < n := by
              have h1 := sizeT_pos t
              have : sizeT t + sizeLC (t2 :: ts2) ≤ n := hn
              omega
            have hlen2 : sizeLC (t2 :: ts2) ≤ s.fibers.length := by
              have h1 := sizeT_pos t
              have : sizeT t + sizeLC (t2 :: ts2) ≤ s.fibers.length := hlen
              omega
            have hk2 : s.fibers.length + 1 = k + rightDepthC (t2 :: ts2) := hk
            exact (ih _ hsmaller).2 (t2 :: ts2) pid hC (le_refl _) hlen2 (by simp) k hk2

/-- C9: in a work-in-progress tree realized by the fiber arena, the
next unit of work after a fiber is its first child when one exists;
otherwise the upward parent walk yields the sibling of the nearest
ancestor-or-self that has one, the pass ending (no next fiber) exactly
when that walk exits the work-in-progress root — so iterating the
next-unit selection from the root visits the whole tree in depth-first
pre-order (each fiber's successor is the next entry of the pre-order
listing, and the last fiber's successor is `none`).
`performUnitOfWork` returns exactly this next-unit selection applied to
the post-processing state. -/
theorem traversal_preorder_contract (s : EngState) (t : RTree)
    (hrep : RepF s none none t) (hsz : sizeT t ≤ s.fibers.length) :
    (∀ (fid : Nat) (f : FiberRec), s.getF fid = some f → f.child.isSome →
        stepNext s fid = f.child)
  ∧ (∀ (env : CompEnv) (fid : Nat),
        (performUnitOfWork env fid s).2 = stepNext (performUnitOfWork env fid s).1 fid)
  ∧ SuccOK s (preorder t) none := by
  refine ⟨?_, fun env fid => rfl, ?_⟩
  · intro fid f hgf hcs
    cases hc : f.child with
    | none => rw [hc] at hcs; cases hcs
    | some c => simp only [stepNext, hgf, hc]
  · have hrd : rightDepth t ≤ s.fibers.length + 1 :=
      le_trans (rd_le_size t) (by omega)
    have hk : s.fibers.length + 1 =
        (s.fibers.length + 1 - rightDepth t) + rightDepth t := by
      omega
    have h := (succOK_aux s (sizeT t)).1 t none none hrep (le_refl _) hsz
      (s.fibers.length + 1 - rightDepth t) hk
    simpa [sibExit, upWalk_none] using h

/-- C9 witness: the concrete tree `0[1[2, 3]]` is visited in pre-order
`[0, 1, 2, 3]` and the pass ends after fiber 3. -/
theorem traversal_preorder_witness :
    SuccOK c9State (preorder c9Tree) none
    ∧ sizeT c9Tree ≤ c9State.fibers.length := by
  have hrep : RepF c9State none none c9Tree :=
    ⟨_, rfl, rfl, rfl, rfl,
      ⟨⟨_, rfl, rfl, rfl, rfl,
        ⟨⟨_, rfl, rfl, rfl, rfl, trivial⟩,
         ⟨_, rfl, rfl, rfl, rfl, trivial⟩, trivial⟩⟩, trivial⟩⟩
  exact ⟨(traversal_preorder_contract c9State c9Tree hrep (by decide)).2.2, by decide⟩

end Didact
